import Mathlib

/-
  Verification development for the matheval expression engine
  (crates/matheval-core): lexer, Pratt parser, AST optimizer,
  bytecode compiler and stack VM, shallowly embedded in Lean.

  Value model: the engine computes with IEEE-754 f64.  We embed f64 as an
  exact value domain: a rational number, or one of the special values
  NaN, +inf, -inf.  Arithmetic on rationals is exact (the embedding
  abstracts from rounding and from the sign of zero); the special values
  follow the IEEE rules.  Transcendental builtins (sin, cos, tan, sqrt,
  exp, ln, log10) produce irrational results that the exact model cannot
  represent: they are stubbed to NaN below, and no theorem in this file
  depends on their output values.
-/

namespace Matheval

/-- Exact rational number with kernel-computable arithmetic: an integer
numerator over a natural denominator.  All pipeline values are kept in
reduced form (positive denominator, coprime with the numerator), witnessed
by the predicate MQ.Reduced below; on reduced representatives structural
equality coincides with numeric equality. -/
structure MQ where
  num : Int
  den : Nat
deriving DecidableEq

instance (n : Nat) : OfNat MQ n := ⟨⟨n, 1⟩⟩

/-- Normalize a fraction: divide out the gcd of numerator and denominator. -/
def MQ.norm (n : Int) (d : Nat) : MQ :=
  let g := Nat.gcd n.natAbs d
  ⟨n / (g : Int), d / g⟩

/-- Canonical-form invariant for MQ values. -/
def MQ.Reduced (q : MQ) : Prop := 0 < q.den ∧ Nat.Coprime q.num.natAbs q.den

instance (q : MQ) : Decidable q.Reduced := by
  unfold MQ.Reduced Nat.Coprime; infer_instance

def MQ.add (x y : MQ) : MQ := MQ.norm (x.num * y.den + y.num * x.den) (x.den * y.den)

def MQ.sub (x y : MQ) : MQ := MQ.norm (x.num * y.den - y.num * x.den) (x.den * y.den)

def MQ.mul (x y : MQ) : MQ := MQ.norm (x.num * y.num) (x.den * y.den)

/-- Reciprocal; the zero branch is junk and is guarded at every use. -/
def MQ.inv (x : MQ) : MQ :=
  if 0 < x.num then ⟨(x.den : Int), x.num.natAbs⟩
  else if x.num < 0 then ⟨-(x.den : Int), x.num.natAbs⟩
  else ⟨0, 1⟩

def MQ.div (x y : MQ) : MQ := MQ.mul x (MQ.inv y)

def MQ.neg (x : MQ) : MQ := ⟨-x.num, x.den⟩

instance : Neg MQ := ⟨MQ.neg⟩

def MQ.npow (x : MQ) (n : Nat) : MQ := ⟨x.num ^ n, x.den ^ n⟩

/-- Integer power (positive exponents directly, negative via reciprocal). -/
def MQ.zpow (x : MQ) : Int → MQ
  | .ofNat n => x.npow n
  | .negSucc n => MQ.inv (x.npow (n + 1))

/-- Numeric order on fractions by cross multiplication. -/
def MQ.blt (x y : MQ) : Bool := x.num * (y.den : Int) < y.num * (x.den : Int)

def MQ.ble (x y : MQ) : Bool := x.num * (y.den : Int) ≤ y.num * (x.den : Int)

/-- Embedded f64 value: an exact rational, or NaN / +infinity / -infinity. -/
inductive F64 where
  | fin (q : MQ)
  | inf
  | ninf
  | nan
deriving DecidableEq

/-- IEEE equality (the Rust operator == on f64): NaN compares unequal to
everything, including itself; all other values compare by magnitude
(structural comparison of the reduced representatives). -/
def feq : F64 → F64 → Bool
  | .fin a, .fin b => a == b
  | .inf, .inf => true
  | .ninf, .ninf => true
  | _, _ => false

/-- IEEE addition on the embedded domain (a + b in vm.rs and compiler.rs). -/
def fadd : F64 → F64 → F64
  | .nan, _ => .nan
  | _, .nan => .nan
  | .inf, .ninf => .nan
  | .ninf, .inf => .nan
  | .inf, _ => .inf
  | _, .inf => .inf
  | .ninf, _ => .ninf
  | _, .ninf => .ninf
  | .fin a, .fin b => .fin (MQ.add a b)

/-- IEEE subtraction on the embedded domain (a - b). -/
def fsub : F64 → F64 → F64
  | .nan, _ => .nan
  | _, .nan => .nan
  | .inf, .inf => .nan
  | .ninf, .ninf => .nan
  | .inf, _ => .inf
  | _, .inf => .ninf
  | .ninf, _ => .ninf
  | _, .ninf => .inf
  | .fin a, .fin b => .fin (MQ.sub a b)

/-- IEEE multiplication on the embedded domain (a * b); infinity times zero
is NaN, infinities multiply by sign. -/
def fmul : F64 → F64 → F64
  | .nan, _ => .nan
  | _, .nan => .nan
  | .inf, .inf => .inf
  | .inf, .ninf => .ninf
  | .ninf, .inf => .ninf
  | .ninf, .ninf => .inf
  | .inf, .fin b => if b.num = 0 then .nan else if 0 < b.num then .inf else .ninf
  | .fin a, .inf => if a.num = 0 then .nan else if 0 < a.num then .inf else .ninf
  | .ninf, .fin b => if b.num = 0 then .nan else if 0 < b.num then .ninf else .inf
  | .fin a, .ninf => if a.num = 0 then .nan else if 0 < a.num then .ninf else .inf
  | .fin a, .fin b => .fin (MQ.mul a b)

/-- IEEE division on the embedded domain (a / b).  Both call sites in the
source (vm.rs Div, and constant folding in compiler.rs) test b == 0.0
before dividing, so the fin/zero branch below is unreachable there; it is
mapped to NaN. -/
def fdiv : F64 → F64 → F64
  | .nan, _ => .nan
  | _, .nan => .nan
  | .inf, .inf => .nan
  | .inf, .ninf => .nan
  | .ninf, .inf => .nan
  | .ninf, .ninf => .nan
  | .inf, .fin b => if 0 ≤ b.num then .inf else .ninf
  | .ninf, .fin b => if 0 ≤ b.num then .ninf else .inf
  | .fin _, .inf => .fin 0
  | .fin _, .ninf => .fin 0
  | .fin a, .fin b => if b.num = 0 then .nan else .fin (MQ.div a b)

/-- IEEE negation (the unary - in vm.rs); the embedding has no signed zero. -/
def fneg : F64 → F64
  | .fin a => .fin (-a)
  | .inf => .ninf
  | .ninf => .inf
  | .nan => .nan

/-- IEEE power, f64::powf in the source.  Exact for integer exponents;
pow(x, 0) = 1 and pow(1, y) = 1 for every x, y including NaN; a negative
base with a non-integer exponent gives NaN.  A positive base with a
non-integer exponent is irrational in general and cannot be represented in
the exact model: that branch is mapped to NaN, and no theorem in this file
depends on it. -/
def fpow (x y : F64) : F64 :=
  match y with
  | .fin b =>
    if b.num = 0 then .fin 1
    else
      match x with
      | .nan => .nan
      | .fin a =>
        if a = 1 then .fin 1
        else if b.den = 1 then
          if a.num = 0 ∧ b.num < 0 then .inf else .fin (MQ.zpow a b.num)
        else if a.num < 0 then .nan
        else if a.num = 0 then (if b.num < 0 then .inf else .fin 0)
        else .nan
      | .inf => if 0 < b.num then .inf else .fin 0
      | .ninf =>
        if b.den = 1 ∧ b.num % 2 ≠ 0 then (if 0 < b.num then .ninf else .fin 0)
        else (if 0 < b.num then .inf else .fin 0)
  | .nan =>
    match x with
    | .fin a => if a = 1 then .fin 1 else .nan
    | _ => .nan
  | .inf =>
    match x with
    | .nan => .nan
    | .fin a =>
      if a = 1 ∨ a = -(1 : MQ) then .fin 1
      else if a.num.natAbs < a.den then .fin 0
      else .inf
    | .inf => .inf
    | .ninf => .inf
  | .ninf =>
    match x with
    | .nan => .nan
    | .fin a =>
      if a = 1 ∨ a = -(1 : MQ) then .fin 1
      else if a.num.natAbs < a.den then .inf
      else .fin 0
    | .inf => .fin 0
    | .ninf => .fin 0

/-- Rust f64::max: if one operand is NaN the other is returned. -/
def fmax : F64 → F64 → F64
  | .nan, b => b
  | a, .nan => a
  | .inf, _ => .inf
  | _, .inf => .inf
  | .ninf, b => b
  | a, .ninf => a
  | .fin a, .fin b => if MQ.ble a b then .fin b else .fin a

/-- Rust f64::min: if one operand is NaN the other is returned. -/
def fmin : F64 → F64 → F64
  | .nan, b => b
  | a, .nan => a
  | .ninf, _ => .ninf
  | _, .ninf => .ninf
  | .inf, b => b
  | a, .inf => a
  | .fin a, .fin b => if MQ.ble a b then .fin a else .fin b

/-- Lexical token (token.rs). The number payload is an embedded f64. -/
inductive Token where
  | number (n : F64)
  | identifier (s : String)
  | plus
  | minus
  | star
  | slash
  | caret
  | lparen
  | rparen
  | comma
  | eof
deriving DecidableEq

/-- Whitespace skipping in lexer.rs (Rust char::is_whitespace; the Lean
predicate covers the ASCII whitespace that the development uses). -/
def skip_whitespace (cs : List Char) : List Char := cs.dropWhile Char.isWhitespace

/-- Collect the digit / decimal-point run of a numeric literal, failing on a
second decimal point exactly as lexer.rs read_number does. -/
def take_number : List Char → Bool → Except String (List Char × List Char)
  | [], _ => .ok ([], [])
  | c :: cs, hasDec =>
    if c.isDigit then
      match take_number cs hasDec with
      | .ok (s, r) => .ok (c :: s, r)
      | .error e => .error e
    else if c = '.' then
      if hasDec then .error ("Invalid number: multiple decimal points")
      else
        match take_number cs true with
        | .ok (s, r) => .ok (c :: s, r)
        | .error e => .error e
    else .ok ([], c :: cs)

/-- Value of a digit string as a natural number. -/
def digits_val (ds : List Char) : Nat :=
  ds.foldl (fun acc c => acc * 10 + (c.toNat - 48)) 0

/-- Rust f64 parsing restricted to the digit / dot strings the lexer
collects: fails exactly when the string contains no digit (the string "."),
otherwise the exact decimal value.  The real parser rounds to the nearest
f64; the exact model keeps the full decimal value. -/
def parse_f64 (s : List Char) : Option MQ :=
  let ip := s.takeWhile Char.isDigit
  let rest := s.dropWhile Char.isDigit
  match rest with
  | [] => some ⟨(digits_val ip : Int), 1⟩
  | '.' :: fp =>
    if ip = [] ∧ fp = [] then none
    else
      some (MQ.norm ((digits_val ip : Int) * ((10 ^ fp.length : Nat) : Int) + (digits_val fp : Int))
        (10 ^ fp.length))
  | _ => none

/-- read_number in lexer.rs: collect the literal, then parse it. -/
def read_number (cs : List Char) : Except String (Token × List Char) :=
  match take_number cs false with
  | .error e => .error e
  | .ok (s, r) =>
    match parse_f64 s with
    | some q => .ok (.number (.fin q), r)
    | none => .error ("Invalid number format: " ++ String.mk s)

/-- Identifier continuation characters (Rust is_alphanumeric or underscore;
the development only uses ASCII identifiers). -/
def is_ident_char (c : Char) : Bool := c.isAlphanum || c = '_'

/-- read_identifier in lexer.rs. -/
def read_identifier (cs : List Char) : Token × List Char :=
  (.identifier (String.mk (cs.takeWhile is_ident_char)), cs.dropWhile is_ident_char)

/-- Identifier start characters in lexer.rs next_token (ASCII letter or
underscore). -/
def is_ident_start (c : Char) : Bool :=
  (('a' ≤ c ∧ c ≤ 'z') ∨ ('A' ≤ c ∧ c ≤ 'Z') ∨ c = '_')

/-- next_token in lexer.rs: skip whitespace, then dispatch on the next
character.  The lexer is lazy; it is modelled as a function from the
remaining characters to a token and the rest. -/
def next_token (input : List Char) : Except String (Token × List Char) :=
  match skip_whitespace input with
  | [] => .ok (.eof, [])
  | c :: rest =>
    if c = '+' then .ok (.plus, rest)
    else if c = '-' then .ok (.minus, rest)
    else if c = '*' then .ok (.star, rest)
    else if c = '/' then .ok (.slash, rest)
    else if c = '^' then .ok (.caret, rest)
    else if c = '(' then .ok (.lparen, rest)
    else if c = ')' then .ok (.rparen, rest)
    else if c = ',' then .ok (.comma, rest)
    else if c.isDigit || c = '.' then read_number (c :: rest)
    else if is_ident_start c then .ok (read_identifier (c :: rest))
    else .error ("Unexpected character: " ++ String.mk [c])

/-- Binary operator tag (ast.rs). -/
inductive BinaryOp where
  | add
  | sub
  | mul
  | div
  | pow
deriving DecidableEq

/-- Unary operator tag (ast.rs). -/
inductive UnaryOp where
  | neg
deriving DecidableEq

mutual
/-- Expression tree (ast.rs).  The Rust Vec of call arguments is embedded
as the mutually inductive list ExprList so that all recursions below are
structural. -/
inductive Expr where
  | Number (n : F64)
  | Variable (name : String)
  | Binary (op : BinaryOp) (left right : Expr)
  | Unary (op : UnaryOp) (e : Expr)
  | Call (func : String) (args : ExprList)
/-- List of argument expressions (the Vec in ast.rs Call). -/
inductive ExprList where
  | nil
  | cons (head : Expr) (tail : ExprList)
end

/-- Length of an argument list (Vec::len). -/
def exlen : ExprList → Nat
  | .nil => 0
  | .cons _ as => exlen as + 1

/-- Build an argument list from a Lean list (statement convenience). -/
def exof : List Expr → ExprList
  | [] => .nil
  | a :: as => .cons a (exof as)

/-- Parser state: the one-token lookahead plus the unread characters of the
lazy lexer (parser.rs Parser holds current_token and the Lexer). -/
structure ParserState where
  current_token : Token
  rest : List Char
deriving DecidableEq

/-- Parser::new: pull the first token. -/
def parser_new (input : String) : Except String ParserState :=
  match next_token input.toList with
  | .ok (t, r) => .ok ⟨t, r⟩
  | .error e => .error e

/-- Parser::advance. -/
def p_advance (st : ParserState) : Except String ParserState :=
  match next_token st.rest with
  | .ok (t, r) => .ok ⟨t, r⟩
  | .error e => .error e

/-- Infix binding powers, parser.rs bp_infix. -/
def bp_infix_op : Token → Nat × Nat
  | .plus => (10, 11)
  | .minus => (10, 11)
  | .star => (20, 21)
  | .slash => (20, 21)
  | .caret => (30, 29)
  | _ => (0, 0)

/-- Prefix binding power, parser.rs (bp 99 for unary minus). -/
def bp_prefix_op : Token → Nat
  | .minus => 99
  | _ => 0

mutual
/-- Parser::expression.  The Rust recursion is bounded by the input; the
embedding adds an explicit fuel argument, consumed once per nested call,
which the top-level entry point sizes from the input length. -/
def expression : Nat → Nat → ParserState → Except String (Expr × ParserState)
  | 0, _, _ => .error ("parser fuel exhausted")
  | fuel + 1, min_bp, st =>
    match nud fuel st with
    | .error e => .error e
    | .ok (left, st1) => expr_loop fuel min_bp left st1
/-- The infix loop inside Parser::expression. -/
def expr_loop : Nat → Nat → Expr → ParserState → Except String (Expr × ParserState)
  | 0, _, _, _ => .error ("parser fuel exhausted")
  | fuel + 1, min_bp, left, st =>
    let token := st.current_token
    if token = .eof ∨ token = .rparen ∨ token = .comma then .ok (left, st)
    else
      let bp := bp_infix_op token
      if bp.1 < min_bp then .ok (left, st)
      else
        match p_advance st with
        | .error e => .error e
        | .ok st1 =>
          match led fuel left token bp.2 st1 with
          | .error e => .error e
          | .ok (left2, st2) => expr_loop fuel min_bp left2 st2
/-- Parser::nud (null denotation). -/
def nud : Nat → ParserState → Except String (Expr × ParserState)
  | 0, _ => .error ("parser fuel exhausted")
  | fuel + 1, st =>
    match p_advance st with
    | .error e => .error e
    | .ok st1 =>
      match st.current_token with
      | .number n => .ok (.Number n, st1)
      | .identifier name =>
        if st1.current_token = .lparen then
          match p_advance st1 with
          | .error e => .error e
          | .ok st2 =>
            let argsRes : Except String (ExprList × ParserState) :=
              if st2.current_token = .rparen then .ok (.nil, st2)
              else parse_call_args fuel st2
            match argsRes with
            | .error e => .error e
            | .ok (args, st3) =>
              if st3.current_token = .rparen then
                match p_advance st3 with
                | .error e => .error e
                | .ok st4 => .ok (.Call name args, st4)
              else .error ("Expected closing paren after function arguments")
        else .ok (.Variable name, st1)
      | .minus =>
        match expression fuel (bp_prefix_op .minus) st1 with
        | .error e => .error e
        | .ok (e, st2) => .ok (.Unary .neg e, st2)
      | .lparen =>
        match expression fuel 0 st1 with
        | .error e => .error e
        | .ok (e, st2) =>
          if st2.current_token = .rparen then
            match p_advance st2 with
            | .error e => .error e
            | .ok st3 => .ok (e, st3)
          else .error ("Expected closing paren")
      | _ => .error ("Unexpected token in nud")
/-- The comma-separated argument loop inside Parser::nud. -/
def parse_call_args : Nat → ParserState → Except String (ExprList × ParserState)
  | 0, _ => .error ("parser fuel exhausted")
  | fuel + 1, st =>
    match expression fuel 0 st with
    | .error e => .error e
    | .ok (e, st1) =>
      if st1.current_token = .comma then
        match p_advance st1 with
        | .error e => .error e
        | .ok st2 =>
          match parse_call_args fuel st2 with
          | .error e => .error e
          | .ok (es, st3) => .ok (.cons e es, st3)
      else .ok (.cons e .nil, st1)
/-- Parser::led (left denotation). -/
def led : Nat → Expr → Token → Nat → ParserState → Except String (Expr × ParserState)
  | 0, _, _, _, _ => .error ("parser fuel exhausted")
  | fuel + 1, left, token, r_bp, st =>
    match expression fuel r_bp st with
    | .error e => .error e
    | .ok (right, st1) =>
      match token with
      | .plus => .ok (.Binary .add left right, st1)
      | .minus => .ok (.Binary .sub left right, st1)
      | .star => .ok (.Binary .mul left right, st1)
      | .slash => .ok (.Binary .div left right, st1)
      | .caret => .ok (.Binary .pow left right, st1)
      | _ => .error ("Unexpected token in led")
end

/-- Lexing plus parsing of a source string (lib.rs compile, stages one and
two): trailing tokens after a complete expression are not consumed, exactly
as Parser::parse leaves them unread.  The fuel bound is generous: every
nested parser call consumes at least one character or token. -/
def parseSrc (s : String) : Except String Expr :=
  match parser_new s with
  | .error e => .error e
  | .ok st =>
    match expression (2 * s.length + 8) 0 st with
    | .error e => .error e
    | .ok (e, _) => .ok e

/-- Rust args[0] with the out-of-bounds panic out of model scope: every
builtin below is invoked by the VM with the argument count recorded at the
Call site, and the development never evaluates a fixed-arity builtin on an
empty slice. -/
def arg0 (args : List F64) : F64 := args.getD 0 (.fin 0)

/-- Transcendental builtins (sin, cos, tan, sqrt, exp, ln, log10) have
irrational results that the exact value model cannot represent; they are
stubbed to NaN.  No theorem in this development depends on their output
values. -/
def builtin_sin (_args : List F64) : F64 := .nan

def builtin_cos (_args : List F64) : F64 := .nan

def builtin_tan (_args : List F64) : F64 := .nan

def builtin_sqrt (_args : List F64) : F64 := .nan

def builtin_abs (args : List F64) : F64 :=
  match arg0 args with
  | .fin q => .fin ⟨(q.num.natAbs : Int), q.den⟩
  | .inf => .inf
  | .ninf => .inf
  | .nan => .nan

def builtin_floor (args : List F64) : F64 :=
  match arg0 args with
  | .fin q => .fin ⟨Int.fdiv q.num q.den, 1⟩
  | .inf => .inf
  | .ninf => .ninf
  | .nan => .nan

def builtin_ceil (args : List F64) : F64 :=
  match arg0 args with
  | .fin q => .fin ⟨-(Int.fdiv (-q.num) q.den), 1⟩
  | .inf => .inf
  | .ninf => .ninf
  | .nan => .nan

/-- Rust f64::round rounds half away from zero. -/
def builtin_round (args : List F64) : F64 :=
  match arg0 args with
  | .fin q =>
    if 0 ≤ q.num then .fin ⟨Int.fdiv (2 * q.num + q.den) (2 * q.den), 1⟩
    else .fin ⟨-(Int.fdiv (2 * (-q.num) + q.den) (2 * q.den)), 1⟩
  | .inf => .inf
  | .ninf => .ninf
  | .nan => .nan

def builtin_exp (_args : List F64) : F64 := .nan

def builtin_ln (_args : List F64) : F64 := .nan

def builtin_log10 (_args : List F64) : F64 := .nan

/-- compiler.rs builtin_max: left fold of f64::max with initial -infinity. -/
def builtin_max (args : List F64) : F64 := args.foldl fmax .ninf

/-- compiler.rs builtin_min: left fold of f64::min with initial +infinity. -/
def builtin_min (args : List F64) : F64 := args.foldl fmin .inf

/-- compiler.rs builtin_unknown: the sentinel for unregistered function
names; returns NaN regardless of its arguments. -/
def builtin_unknown (_args : List F64) : F64 := .nan

/-- The registry match in Compiler::resolve_func (compiler.rs lines
161-179), in source order, with the sentinel as the default arm. -/
def builtinFor (name : String) : List F64 → F64 :=
  if name = "sin" then builtin_sin
  else if name = "cos" then builtin_cos
  else if name = "tan" then builtin_tan
  else if name = "sqrt" then builtin_sqrt
  else if name = "abs" then builtin_abs
  else if name = "floor" then builtin_floor
  else if name = "ceil" then builtin_ceil
  else if name = "round" then builtin_round
  else if name = "exp" then builtin_exp
  else if name = "ln" then builtin_ln
  else if name = "log10" then builtin_log10
  else if name = "max" then builtin_max
  else if name = "min" then builtin_min
  else builtin_unknown

/-- The names carried by the built-in registry (spec section 4.7). -/
def registry_names : List String :=
  ["sin", "cos", "tan", "sqrt", "abs", "floor", "ceil", "round", "exp", "ln",
   "log10", "max", "min"]

/-- bytecode.rs FunctionMetadata (declared by the program representation;
the compiler never populates it). -/
structure FunctionMetadata where
  expected_args : Option Nat

/-- bytecode.rs Program: byte-encoded instruction stream plus flat pools.
Instruction bytes are embedded as naturals below 256 (the compiler applies
the explicit mod-256 and mod-65536 casts of the source). -/
structure Program where
  instructions : List Nat
  constants : List F64
  var_names : List String
  func_table : List (List F64 → F64)
  func_names : List String
  func_metadata : List FunctionMetadata

/-- Program::new. -/
def Program.new : Program := ⟨[], [], [], [], [], []⟩

instance {ε α : Type} [DecidableEq ε] [DecidableEq α] : DecidableEq (Except ε α) := fun x y =>
  match x, y with
  | .ok a, .ok b =>
    if h : a = b then isTrue (congrArg Except.ok h)
    else isFalse (fun hh => h (Except.ok.inj hh))
  | .error a, .error b =>
    if h : a = b then isTrue (congrArg Except.error h)
    else isFalse (fun hh => h (Except.error.inj hh))
  | .ok _, .error _ => isFalse (fun hh => Except.noConfusion hh)
  | .error _, .ok _ => isFalse (fun hh => Except.noConfusion hh)

/-- Rust Iterator::position on a list: index of the first element
satisfying the predicate. -/
def position? (p : α → Bool) : List α → Option Nat
  | [] => none
  | a :: as => if p a then some 0 else Option.map (fun i => i + 1) (position? p as)

/-- vm.rs Context: dense vector of variable values. -/
structure Context where
  values : List F64

/-- Context::new. -/
def Context.new : Context := ⟨[]⟩

/-- Context::with_capacity: pre-sized, zero-filled. -/
def Context.with_capacity (capacity : Nat) : Context :=
  ⟨List.replicate capacity (.fin 0)⟩

/-- Context::set_by_index: extends with zeros when the index is beyond the
current length (vm.rs lines 26-31). -/
def Context.set_by_index (c : Context) (index : Nat) (value : F64) : Context :=
  let vs :=
    if index < c.values.length then c.values
    else c.values ++ List.replicate (index + 1 - c.values.length) (.fin 0)
  ⟨vs.set index value⟩

/-- Context::set (vm.rs lines 34-41): look the name up in the program, set
by index when found, otherwise push the value at the end of the vector. -/
def Context.set (c : Context) (name : String) (value : F64) (program : Program) : Context :=
  match position? (fun n => n == name) program.var_names with
  | some index => c.set_by_index index value
  | none => ⟨c.values ++ [value]⟩

/-- Context::get_by_index. -/
def Context.get_by_index (c : Context) (index : Nat) : Option F64 :=
  c.values.get? index

/-- Context::get. -/
def Context.get (c : Context) (name : String) (program : Program) : Option F64 :=
  match position? (fun n => n == name) program.var_names with
  | some index => c.get_by_index index
  | none => none

/-- The Rust pattern Expr::Number(v) for a numeric literal pattern: in the
embedding, a structural match against the reduced representative. -/
def is_num (e : Expr) (v : MQ) : Bool :=
  match e with
  | .Number (.fin q) => q == v
  | _ => false

/-- The algebraic-identity match of Compiler::optimize_expr (compiler.rs
lines 58-81), reached only when the operands did not both fold to literals;
the arms are tested in source order. -/
def alg_rewrite (op : BinaryOp) (left right : Expr) : Expr :=
  if op = .add ∧ is_num left 0 then right
  else if op = .add ∧ is_num right 0 then left
  else if op = .sub ∧ is_num right 0 then left
  else if op = .mul ∧ is_num left 0 then .Number (.fin 0)
  else if op = .mul ∧ is_num right 0 then .Number (.fin 0)
  else if op = .mul ∧ is_num left 1 then right
  else if op = .mul ∧ is_num right 1 then left
  else if op = .div ∧ is_num right 1 then left
  else if op = .pow ∧ is_num right 0 then .Number (.fin 1)
  else if op = .pow ∧ is_num right 1 then left
  else .Binary op left right

/-- The Binary body of Compiler::optimize_expr applied to the already
optimized operands (compiler.rs lines 31-81): fold when both are literals,
skipping division by a literal zero, otherwise the algebraic match. -/
def optBinary (op : BinaryOp) (left right : Expr) : Expr :=
  match left, right with
  | .Number a, .Number b =>
    match op with
    | .add => .Number (fadd a b)
    | .sub => .Number (fsub a b)
    | .mul => .Number (fmul a b)
    | .div =>
      if feq b (.fin 0) then .Binary .div (.Number a) (.Number b)
      else .Number (fdiv a b)
    | .pow => .Number (fpow a b)
  | left, right => alg_rewrite op left right

/-- The Unary body of Compiler::optimize_expr applied to the already
optimized operand (compiler.rs lines 83-95). -/
def optUnary (op : UnaryOp) (e : Expr) : Expr :=
  match e with
  | .Number n =>
    match op with
    | .neg => .Number (fneg n)
  | e2 => .Unary op e2

mutual
/-- Compiler::optimize_expr (compiler.rs lines 29-102): post-order constant
folding, skipping division by a literal zero, then the algebraic
identities. -/
def optimize_expr : Expr → Expr
  | .Binary op l r => optBinary op (optimize_expr l) (optimize_expr r)
  | .Unary op e => optUnary op (optimize_expr e)
  | .Call func args => .Call func (optimize_args args)
  | e => e
/-- Argument recursion of Compiler::optimize_expr for Call nodes. -/
def optimize_args : ExprList → ExprList
  | .nil => .nil
  | .cons a as => .cons (optimize_expr a) (optimize_args as)
end

/-- Compiler::add_constant (compiler.rs lines 134-142): reuse the first
pool entry that compares IEEE-equal, else append; the returned index
carries the as-u16 cast. -/
def add_constant (p : Program) (value : F64) : Nat × Program :=
  match position? (fun c => feq c value) p.constants with
  | some idx => (idx % 65536, p)
  | none =>
    (p.constants.length % 65536, { p with constants := p.constants ++ [value] })

/-- Compiler::resolve_var (compiler.rs lines 144-152).  The var_map hash
map always mirrors var_names (a name is inserted into both together, with
the index it has in the list), so the lookup is embedded as a scan of
var_names; the stored index carries the as-u16 cast applied at insert
time. -/
def resolve_var (p : Program) (name : String) : Nat × Program :=
  match position? (fun n => n == name) p.var_names with
  | some idx => (idx % 65536, p)
  | none =>
    (p.var_names.length % 65536, { p with var_names := p.var_names ++ [name] })

/-- Compiler::resolve_func (compiler.rs lines 154-185): func_map mirrors
func_names exactly as var_map mirrors var_names; on a miss the registry
match (builtinFor) supplies the pointer pushed to func_table. -/
def resolve_func (p : Program) (name : String) : Nat × Program :=
  match position? (fun n => n == name) p.func_names with
  | some idx => (idx % 65536, p)
  | none =>
    (p.func_names.length % 65536,
      { p with
        func_table := p.func_table ++ [builtinFor name],
        func_names := p.func_names ++ [name] })

/-- Push one instruction byte. -/
def emit_byte (p : Program) (b : Nat) : Program :=
  { p with instructions := p.instructions ++ [b] }

/-- Compiler::emit_u16: big-endian, with the two as-u8 casts. -/
def emit_u16 (p : Program) (value : Nat) : Program :=
  { p with instructions := p.instructions ++ [value / 256 % 256, value % 256] }

/-- Opcode byte of a binary operator (bytecode.rs OpCode). -/
def binop_code : BinaryOp → Nat
  | .add => 2
  | .sub => 3
  | .mul => 4
  | .div => 5
  | .pow => 6

mutual
/-- Compiler::compile_expr (compiler.rs lines 104-132). -/
def compile_expr : Expr → Program → Program
  | .Number n, p =>
    let r := add_constant p n
    emit_u16 (emit_byte r.2 0) r.1
  | .Variable name, p =>
    let r := resolve_var p name
    emit_u16 (emit_byte r.2 1) r.1
  | .Binary op l rt, p =>
    emit_byte (compile_expr rt (compile_expr l p)) (binop_code op)
  | .Unary _ e, p => emit_byte (compile_expr e p) 7
  | .Call func args, p =>
    let arg_count := exlen args % 256
    let p1 := compile_args args p
    let r := resolve_func p1 func
    emit_byte (emit_u16 (emit_byte r.2 8) r.1) arg_count
/-- Argument emission of Compiler::compile_expr for Call nodes (source
order). -/
def compile_args : ExprList → Program → Program
  | .nil, p => p
  | .cons a as, p => compile_args as (compile_expr a p)
end

/-- Compiler::compile (compiler.rs lines 21-26): optimize, then lower into
a fresh program. -/
def compiler_compile (e : Expr) : Program :=
  compile_expr (optimize_expr e) Program.new

/-- The high-level Compiler::compile of lib.rs (lines 26-33): lex, parse,
then lower; the only error sources are the lexer and the parser. -/
def compileSrc (s : String) : Except String Program :=
  match parseSrc s with
  | .error e => .error e
  | .ok ast => .ok (compiler_compile ast)

/-- Modelled from the spec (sections 4.3 and 8, optimizer soundness): the
same pipeline with the optimizer bypassed, lowering the parsed tree
directly.  This artifact exists only as the comparison point named by the
spec; it is not a function of the repository. -/
def compileSrcUnoptimized (s : String) : Except String Program :=
  match parseSrc s with
  | .error e => .error e
  | .ok ast => .ok (compile_expr ast Program.new)

/-- Projection for stating concrete compilation results. -/
def compileOk (s : String) : Program :=
  match compileSrc s with
  | .ok p => p
  | .error _ => Program.new

/-- Projection for the unoptimized pipeline. -/
def compileUnoptOk (s : String) : Program :=
  match compileSrcUnoptimized s with
  | .ok p => p
  | .error _ => Program.new

/-- Runtime error values; vm.rs reports them as strings, one constructor
here per distinct message. -/
inductive EvalError where
  | variableCountMismatch (expected got : Nat)
  | divisionByZero
  | stackUnderflow
  | stackUnderflowInCall
  | invalidFunctionIndex (idx : Nat)
  | unknownOpcode (op : Nat)
  | outOfFuel
deriving DecidableEq

/-- VM::read_u16 (vm.rs lines 167-172): big-endian pair of bytes. -/
def readU16 (instructions : List Nat) (pc : Nat) : Nat :=
  instructions.getD pc 0 * 256 + instructions.getD (pc + 1) 0

/-- One iteration of the dispatch loop of VM::run (vm.rs lines 92-161):
decode the opcode byte at pc and execute it, with recur standing for the
continuation of the loop at the advanced pc.  The stack is a list with its
top at the head; the Rust guard chain over OpCode constants is a match on
the opcode byte. -/
def vmExec (p : Program) (vars : List F64)
    (recur : Nat → List F64 → Except EvalError (List F64))
    (pc : Nat) (stack : List F64) : Except EvalError (List F64) :=
  match p.instructions.getD pc 0 with
  | 0 =>
    recur (pc + 3) (p.constants.getD (readU16 p.instructions (pc + 1)) (.fin 0) :: stack)
  | 1 =>
    recur (pc + 3) (vars.getD (readU16 p.instructions (pc + 1)) (.fin 0) :: stack)
  | 2 =>
    match stack with
    | b :: a :: rest => recur (pc + 1) (fadd a b :: rest)
    | _ => .error .stackUnderflow
  | 3 =>
    match stack with
    | b :: a :: rest => recur (pc + 1) (fsub a b :: rest)
    | _ => .error .stackUnderflow
  | 4 =>
    match stack with
    | b :: a :: rest => recur (pc + 1) (fmul a b :: rest)
    | _ => .error .stackUnderflow
  | 5 =>
    match stack with
    | b :: a :: rest =>
      if feq b (.fin 0) then .error .divisionByZero
      else recur (pc + 1) (fdiv a b :: rest)
    | _ => .error .stackUnderflow
  | 6 =>
    match stack with
    | b :: a :: rest => recur (pc + 1) (fpow a b :: rest)
    | _ => .error .stackUnderflow
  | 7 =>
    match stack with
    | a :: rest => recur (pc + 1) (fneg a :: rest)
    | _ => .error .stackUnderflow
  | 8 =>
    if p.func_table.length ≤ readU16 p.instructions (pc + 1) then
      .error (.invalidFunctionIndex (readU16 p.instructions (pc + 1)))
    else if stack.length < p.instructions.getD (pc + 3) 0 then
      .error .stackUnderflowInCall
    else
      recur (pc + 4)
        (p.func_table.getD (readU16 p.instructions (pc + 1)) builtin_unknown
            ((stack.take (p.instructions.getD (pc + 3) 0)).reverse)
          :: stack.drop (p.instructions.getD (pc + 3) 0))
  | op => .error (.unknownOpcode op)

/-- The dispatch loop of VM::run: while pc is inside the instruction
stream, execute one instruction.  The Rust loop advances pc by at least
one byte per iteration; the embedding spends one unit of fuel per
iteration, and the entry point supplies the instruction count as fuel,
which therefore never runs out. -/
def vmLoop (p : Program) (vars : List F64) : Nat → Nat → List F64 → Except EvalError (List F64)
  | 0, pc, stack =>
    if pc < p.instructions.length then .error .outOfFuel else .ok stack
  | fuel + 1, pc, stack =>
    if pc < p.instructions.length then vmExec p vars (vmLoop p vars fuel) pc stack
    else .ok stack

/-- Program::eval via VM::run (vm.rs lines 75-164): the context-length
precondition is checked before the loop, and the final pop returns the top
of the stack. -/
def Program.eval (p : Program) (context : Context) : Except EvalError F64 :=
  if context.values.length < p.var_names.length then
    .error (.variableCountMismatch p.var_names.length context.values.length)
  else
    match vmLoop p context.values p.instructions.length 0 [] with
    | .error e => .error e
    | .ok [] => .error .stackUnderflow
    | .ok (v :: _) => .ok v

/-- Program::create_context (lib.rs lines 85-88). -/
def Program.create_context (p : Program) : Context :=
  Context.with_capacity p.var_names.length

/-- One arithmetic instruction of the VM as a function of the two popped
values: the exact operation table of vm.rs lines 105-132, including the
division-by-zero test. -/
def applyBin (op : BinaryOp) (a b : F64) : Except EvalError F64 :=
  match op with
  | .add => .ok (fadd a b)
  | .sub => .ok (fsub a b)
  | .mul => .ok (fmul a b)
  | .div => if feq b (.fin 0) then .error .divisionByZero else .ok (fdiv a b)
  | .pow => .ok (fpow a b)

mutual
/-- Reference denotational semantics of an expression tree under a
name-to-value environment, mirroring the VM operation for operation; the
bridge between the two compiled programs in the optimizer-soundness
theorem. -/
def evalAst : Expr → (String → F64) → Except EvalError F64
  | .Number n, _ => .ok n
  | .Variable name, env => .ok (env name)
  | .Binary op l r, env =>
    match evalAst l env with
    | .error e => .error e
    | .ok a =>
      match evalAst r env with
      | .error e => .error e
      | .ok b => applyBin op a b
  | .Unary _ e, env =>
    match evalAst e env with
    | .error er => .error er
    | .ok a => .ok (fneg a)
  | .Call func args, env =>
    match evalArgs args env with
    | .error e => .error e
    | .ok vs => .ok (builtinFor func vs)
/-- Reference semantics of an argument list, in source order. -/
def evalArgs : ExprList → (String → F64) → Except EvalError (List F64)
  | .nil, _ => .ok []
  | .cons a as, env =>
    match evalAst a env with
    | .error e => .error e
    | .ok v =>
      match evalArgs as env with
      | .error e => .error e
      | .ok vs => .ok (v :: vs)
end

/-- A finite (rational) value in reduced form. -/
def isFin : F64 → Bool
  | .fin q => decide q.Reduced
  | _ => false

/-- An evaluation that succeeded with a finite reduced value. -/
def isFinOk : Except EvalError F64 → Bool
  | .ok v => isFin v
  | _ => false

mutual
/-- Every subexpression evaluates, under the given environment, to a
finite value without error: the totality and finiteness side condition
under which the discarding rewrites of the optimizer are sound (spec
sections 4.3 and 9). -/
def totalFinite : Expr → (String → F64) → Bool
  | .Number n, _ => isFin n
  | .Variable name, env => isFin (env name)
  | .Binary op l r, env =>
    totalFinite l env && totalFinite r env && isFinOk (evalAst (.Binary op l r) env)
  | .Unary op e, env => totalFinite e env && isFinOk (evalAst (.Unary op e) env)
  | .Call func args, env =>
    totalFiniteArgs args env && isFinOk (evalAst (.Call func args) env)
/-- totalFinite over an argument list. -/
def totalFiniteArgs : ExprList → (String → F64) → Bool
  | .nil, _ => true
  | .cons a as, env => totalFinite a env && totalFiniteArgs as env
end

mutual
/-- Every Call node has at most 255 arguments, so the as-u8 cast of the
argument count in Compiler::compile_expr is the identity. -/
def arityOk : Expr → Bool
  | .Number _ => true
  | .Variable _ => true
  | .Binary _ l r => arityOk l && arityOk r
  | .Unary _ e => arityOk e
  | .Call _ args => decide (exlen args < 256) && arityOkArgs args
/-- arityOk over an argument list. -/
def arityOkArgs : ExprList → Bool
  | .nil => true
  | .cons a as => arityOk a && arityOkArgs as
end

mutual
/-- Number of opcodes emitted for an expression (one per tree node): the
fuel the VM loop consumes while executing its code. -/
def osize : Expr → Nat
  | .Number _ => 1
  | .Variable _ => 1
  | .Binary _ l r => osize l + osize r + 1
  | .Unary _ e => osize e + 1
  | .Call _ args => osizeArgs args + 1
/-- osize over an argument list. -/
def osizeArgs : ExprList → Nat
  | .nil => 0
  | .cons a as => osize a + osizeArgs as
end

/-- The context listing the values of an environment in the order of the
program variable table. -/
def ctxOf (p : Program) (env : String → F64) : Context :=
  ⟨p.var_names.map env⟩

/-- The pool-size bounds under which every as-u16 cast of the compiler is
the identity. -/
def withinLimits (p : Program) : Prop :=
  p.constants.length < 65536 ∧ p.var_names.length < 65536 ∧ p.func_names.length < 65536

instance (p : Program) : Decidable (withinLimits p) := by
  unfold withinLimits; infer_instance

/-- List extension: b is a with further entries appended. -/
def GrowsTo (a b : List α) : Prop := ∃ t, b = a ++ t

/-- Pool and instruction extension between compiler states. -/
def ProgExtends (p q : Program) : Prop :=
  GrowsTo p.instructions q.instructions ∧ GrowsTo p.constants q.constants ∧
  GrowsTo p.var_names q.var_names ∧ GrowsTo p.func_names q.func_names ∧
  GrowsTo p.func_table q.func_table

/-- The function table is the registry image of the function-name list
(resolve_func pushes both together). -/
def FuncInv (p : Program) : Prop := p.func_table = p.func_names.map builtinFor

/-- n copies of an expression as an argument list (statement support). -/
def exrep : Nat → Expr → ExprList
  | 0, _ => .nil
  | n + 1, e => .cons e (exrep n e)

/-- A Call node with 256 arguments: one more than the u8 arg-count field
can hold. -/
def e256 : Expr := .Call "max" (exrep 256 (.Number (.fin 1)))

theorem MQ.norm_self (q : MQ) (h : q.Reduced) : MQ.norm q.num q.den = q := by
  obtain ⟨hd, hc⟩ := h
  have hg : Nat.gcd q.num.natAbs q.den = 1 := hc
  unfold MQ.norm
  simp [hg]

theorem MQ.gcd_dvd_num (n : Int) (d : Nat) : ((Nat.gcd n.natAbs d : Nat) : Int) ∣ n :=
  Int.natCast_dvd.mpr (Nat.gcd_dvd_left _ _)

theorem MQ.norm_reduced (n : Int) (d : Nat) (hd : 0 < d) : (MQ.norm n d).Reduced := by
  have hg : 0 < Nat.gcd n.natAbs d := Nat.gcd_pos_of_pos_right _ hd
  have habs : (n / ((Nat.gcd n.natAbs d : Nat) : Int)).natAbs = n.natAbs / Nat.gcd n.natAbs d := by
    rw [Int.natAbs_ediv _ _ (MQ.gcd_dvd_num n d)]
    simp
  constructor
  · exact Nat.div_pos (Nat.le_of_dvd hd (Nat.gcd_dvd_right _ _)) hg
  · show Nat.Coprime (n / ((Nat.gcd n.natAbs d : Nat) : Int)).natAbs (d / Nat.gcd n.natAbs d)
    rw [habs]
    exact Nat.coprime_div_gcd_div_gcd hg

theorem MQ.zero_den : (0 : MQ).den = 1 := rfl

theorem MQ.zero_num : (0 : MQ).num = 0 := rfl

theorem MQ.one_den : (1 : MQ).den = 1 := rfl

theorem MQ.one_num : (1 : MQ).num = 1 := rfl

theorem MQ.add_zero (q : MQ) (h : q.Reduced) : MQ.add q 0 = q := by
  unfold MQ.add
  have h1 : q.num * ((0 : MQ).den : Int) + (0 : MQ).num * (q.den : Int) = q.num := by
    rw [MQ.zero_den, MQ.zero_num]; push_cast; ring
  have h2 : q.den * (0 : MQ).den = q.den := by rw [MQ.zero_den]; omega
  rw [h1, h2, MQ.norm_self q h]

theorem MQ.zero_add (q : MQ) (h : q.Reduced) : MQ.add 0 q = q := by
  unfold MQ.add
  have h1 : (0 : MQ).num * (q.den : Int) + q.num * ((0 : MQ).den : Int) = q.num := by
    rw [MQ.zero_den, MQ.zero_num]; push_cast; ring
  have h2 : (0 : MQ).den * q.den = q.den := by rw [MQ.zero_den]; omega
  rw [h1, h2, MQ.norm_self q h]

theorem MQ.sub_zero (q : MQ) (h : q.Reduced) : MQ.sub q 0 = q := by
  unfold MQ.sub
  have h1 : q.num * ((0 : MQ).den : Int) - (0 : MQ).num * (q.den : Int) = q.num := by
    rw [MQ.zero_den, MQ.zero_num]; push_cast; ring
  have h2 : q.den * (0 : MQ).den = q.den := by rw [MQ.zero_den]; omega
  rw [h1, h2, MQ.norm_self q h]

theorem MQ.norm_zero (d : Nat) (hd : 0 < d) : MQ.norm 0 d = 0 := by
  unfold MQ.norm
  have : Nat.gcd (Int.natAbs 0) d = d := by simp
  simp [this, Nat.div_self hd]
  rfl

theorem MQ.mul_zero (q : MQ) (h : q.Reduced) : MQ.mul q 0 = 0 := by
  unfold MQ.mul
  have h1 : q.num * (0 : MQ).num = 0 := by rw [MQ.zero_num]; ring
  have h2 : q.den * (0 : MQ).den = q.den := by rw [MQ.zero_den]; omega
  rw [h1, h2, MQ.norm_zero _ h.1]

theorem MQ.zero_mul (q : MQ) (h : q.Reduced) : MQ.mul 0 q = 0 := by
  unfold MQ.mul
  have h1 : (0 : MQ).num * q.num = 0 := by rw [MQ.zero_num]; ring
  have h2 : (0 : MQ).den * q.den = q.den := by rw [MQ.zero_den]; omega
  rw [h1, h2, MQ.norm_zero _ h.1]

theorem MQ.mul_one (q : MQ) (h : q.Reduced) : MQ.mul q 1 = q := by
  unfold MQ.mul
  have h1 : q.num * (1 : MQ).num = q.num := by rw [MQ.one_num]; ring
  have h2 : q.den * (1 : MQ).den = q.den := by rw [MQ.one_den]; omega
  rw [h1, h2, MQ.norm_self q h]

theorem MQ.one_mul (q : MQ) (h : q.Reduced) : MQ.mul 1 q = q := by
  unfold MQ.mul
  have h1 : (1 : MQ).num * q.num = q.num := by rw [MQ.one_num]; ring
  have h2 : (1 : MQ).den * q.den = q.den := by rw [MQ.one_den]; omega
  rw [h1, h2, MQ.norm_self q h]

theorem MQ.inv_one : MQ.inv 1 = 1 := by decide

theorem MQ.div_one (q : MQ) (h : q.Reduced) : MQ.div q 1 = q := by
  unfold MQ.div
  rw [MQ.inv_one, MQ.mul_one q h]

theorem MQ.zpow_one (q : MQ) : MQ.zpow q 1 = q := by
  show MQ.zpow q (Int.ofNat 1) = q
  unfold MQ.zpow MQ.npow
  simp

theorem feq_true_eq {x y : F64} (h : feq x y = true) : x = y := by
  cases x <;> cases y <;> simp_all [feq]

theorem fadd_zero (q : MQ) (h : q.Reduced) : fadd (.fin q) (.fin 0) = .fin q := by
  simp [fadd, MQ.add_zero q h]

theorem fadd_zero_left (q : MQ) (h : q.Reduced) : fadd (.fin 0) (.fin q) = .fin q := by
  simp [fadd, MQ.zero_add q h]

theorem fsub_zero (q : MQ) (h : q.Reduced) : fsub (.fin q) (.fin 0) = .fin q := by
  simp [fsub, MQ.sub_zero q h]

theorem fmul_zero (q : MQ) (h : q.Reduced) : fmul (.fin q) (.fin 0) = .fin 0 := by
  simp [fmul, MQ.mul_zero q h]

theorem fmul_zero_left (q : MQ) (h : q.Reduced) : fmul (.fin 0) (.fin q) = .fin 0 := by
  simp [fmul, MQ.zero_mul q h]

theorem fmul_one (q : MQ) (h : q.Reduced) : fmul (.fin q) (.fin 1) = .fin q := by
  simp [fmul, MQ.mul_one q h]

theorem fmul_one_left (q : MQ) (h : q.Reduced) : fmul (.fin 1) (.fin q) = .fin q := by
  simp [fmul, MQ.one_mul q h]

theorem fdiv_one (q : MQ) (h : q.Reduced) : fdiv (.fin q) (.fin 1) = .fin q := by
  have h1 : (1 : MQ).num = 1 := rfl
  simp [fdiv, h1, MQ.div_one q h]

theorem fpow_zero_right (v : F64) : fpow v (.fin 0) = .fin 1 := by
  have h0 : (0 : MQ).num = 0 := rfl
  simp [fpow, h0]

theorem fpow_one_right (v : F64) : fpow v (.fin 1) = v := by
  have h1 : (1 : MQ).num = 1 := rfl
  have hd : (1 : MQ).den = 1 := rfl
  cases v with
  | fin a =>
    by_cases ha : a = 1
    · simp [fpow, h1, hd, ha]
    · simp [fpow, h1, hd, ha, MQ.zpow_one]
  | inf => simp [fpow, h1]
  | ninf => simp [fpow, h1, hd]
  | nan => simp [fpow, h1]

theorem getD_append_lt (l t : List α) (i : Nat) (d : α) (h : i < l.length) :
    (l ++ t).getD i d = l.getD i d := by
  induction l generalizing i with
  | nil => simp at h
  | cons a as ih =>
    cases i with
    | zero => rfl
    | succ n =>
      simp only [List.cons_append, List.getD_cons_succ]
      exact ih n (by simpa using h)

theorem getD_append_len (l : List α) (x : α) (t : List α) (d : α) :
    (l ++ x :: t).getD l.length d = x := by
  induction l with
  | nil => rfl
  | cons a as ih => simpa using ih

theorem getD_map_lt (f : α → β) (l : List α) (i : Nat) (d : β) (d2 : α) (h : i < l.length) :
    (l.map f).getD i d = f (l.getD i d2) := by
  induction l generalizing i with
  | nil => simp at h
  | cons a as ih =>
    cases i with
    | zero => rfl
    | succ n =>
      simp only [List.map_cons, List.getD_cons_succ]
      exact ih n (by simpa using h)

theorem getD_replicate_lt (n : Nat) (x : α) (i : Nat) (d : α) (h : i < n) :
    (List.replicate n x).getD i d = x := by
  induction n generalizing i with
  | zero => omega
  | succ m ih =>
    cases i with
    | zero => rfl
    | succ k =>
      simp only [List.replicate_succ, List.getD_cons_succ]
      exact ih k (by omega)

theorem position?_none_iff (p : α → Bool) (l : List α) :
    position? p l = none ↔ ∀ a ∈ l, p a = false := by
  induction l with
  | nil => simp [position?]
  | cons a as ih =>
    by_cases h : p a
    · simp [position?, h]
    · simp [position?, h, ih, Option.map_eq_none]

theorem position?_cons_of_true (p : α → Bool) (a : α) (as : List α) (hp : p a = true) :
    position? p (a :: as) = some 0 := by
  unfold position?
  rw [if_pos hp]

theorem position?_cons_of_false (p : α → Bool) (a : α) (as : List α) (hp : p a = false) :
    position? p (a :: as) = Option.map (fun i => i + 1) (position? p as) := by
  rw [position?]
  rw [if_neg (by simp [hp])]

theorem position?_some_lt (p : α → Bool) (l : List α) (i : Nat)
    (h : position? p l = some i) : i < l.length := by
  induction l generalizing i with
  | nil => simp [position?] at h
  | cons a as ih =>
    by_cases hp : p a
    · rw [position?_cons_of_true p a as hp] at h
      cases h
      simp
    · rw [position?_cons_of_false p a as (by simpa using hp)] at h
      rcases hj : position? p as with _ | j
      · rw [hj] at h; simp at h
      · rw [hj] at h
        have hij : j + 1 = i := by simpa using h
        subst hij
        have := ih j hj
        simp only [List.length_cons]
        omega

theorem position?_some_getD (p : α → Bool) (l : List α) (i : Nat) (d : α)
    (h : position? p l = some i) : p (l.getD i d) = true := by
  induction l generalizing i with
  | nil => simp [position?] at h
  | cons a as ih =>
    by_cases hp : p a
    · rw [position?_cons_of_true p a as hp] at h
      cases h
      simpa using hp
    · rw [position?_cons_of_false p a as (by simpa using hp)] at h
      rcases hj : position? p as with _ | j
      · rw [hj] at h; simp at h
      · rw [hj] at h
        have hij : j + 1 = i := by simpa using h
        subst hij
        simpa only [List.getD_cons_succ] using ih j hj

theorem getD_mem (l : List α) (i : Nat) (d : α) (h : i < l.length) : l.getD i d ∈ l := by
  induction l generalizing i with
  | nil => simp at h
  | cons a as ih =>
    cases i with
    | zero => simp
    | succ n =>
      simp only [List.getD_cons_succ]
      exact List.mem_cons_of_mem a (ih n (by simpa using h))

theorem position?_beq_self (l : List String) (i : Nat) (d : String)
    (hnd : l.Nodup) (h : i < l.length) :
    position? (fun n => n == l.getD i d) l = some i := by
  induction l generalizing i with
  | nil => simp at h
  | cons a as ih =>
    cases i with
    | zero =>
      exact position?_cons_of_true _ a as (by simp)
    | succ n =>
      have hn : n < as.length := by simpa using h
      have hne : a ≠ as.getD n d := by
        intro he
        exact (List.nodup_cons.mp hnd).1 (he ▸ getD_mem as n d hn)
      rw [List.getD_cons_succ]
      rw [position?_cons_of_false _ a as (by simpa using hne)]
      rw [ih n (List.nodup_cons.mp hnd).2 hn]
      rfl

theorem get?_replicate_lt (n : Nat) (x : α) (i : Nat) (h : i < n) :
    (List.replicate n x).get? i = some x := by
  induction n generalizing i with
  | zero => omega
  | succ m ih =>
    cases i with
    | zero => rfl
    | succ k => simpa [List.replicate_succ] using ih k (by omega)

/-- The dispatch loop never reports the context-length error: that error is
produced only by the precondition check before the loop. -/
theorem vmLoop_ne_vcm (p : Program) (vars : List F64) (fuel : Nat) :
    ∀ (pc : Nat) (stack : List F64) (n m : Nat),
      vmLoop p vars fuel pc stack ≠ .error (.variableCountMismatch n m) := by
  induction fuel with
  | zero =>
    intro pc stack n m
    unfold vmLoop
    split <;> simp
  | succ f ih =>
    intro pc stack n m h
    rw [vmLoop] at h
    split at h
    · unfold vmExec at h
      repeat' split at h
      all_goals first | exact ih _ _ _ _ h | simp at h
    · simp at h

/-- C6: a program evaluation returns VariableCountMismatch (with the
program variable count and the supplied length) exactly when the context
value vector is shorter than the program variable-name list; the check
runs before the dispatch loop, so a context at least as long as the
variable list is never rejected with this error. -/
theorem c6_context_length_precondition :
    ∀ (p : Program) (ctx : Context),
      (ctx.values.length < p.var_names.length →
        p.eval ctx = .error (.variableCountMismatch p.var_names.length ctx.values.length)) ∧
      (p.var_names.length ≤ ctx.values.length →
        ∀ n m, p.eval ctx ≠ .error (.variableCountMismatch n m)) := by
  intro p ctx
  constructor
  · intro h
    unfold Program.eval
    rw [if_pos h]
  · intro h n m
    unfold Program.eval
    rw [if_neg (by omega)]
    rcases hv : vmLoop p ctx.values p.instructions.length 0 [] with er | st
    · have := vmLoop_ne_vcm p ctx.values p.instructions.length 0 [] n m
      rw [hv] at this
      simpa using this
    · cases st <;> simp

theorem c6_witness :
    ((compileOk "x + y").eval ⟨[.fin 1]⟩ =
      .error (.variableCountMismatch (compileOk "x + y").var_names.length 1)) ∧
    (∀ n m, (compileOk "x + y").eval ⟨[.fin 1, .fin 2]⟩ ≠
      .error (.variableCountMismatch n m)) := by
  constructor
  · exact (c6_context_length_precondition (compileOk "x + y") ⟨[.fin 1]⟩).1 (by decide)
  · exact (c6_context_length_precondition (compileOk "x + y") ⟨[.fin 1, .fin 2]⟩).2 (by decide)

/-- C10: Program::create_context returns a context whose value vector has
exactly the program variable count, every slot holding 0.0; evaluating
with it never returns VariableCountMismatch, and a variable slot the
caller never set reads as 0.0 (both through the get accessor and through
the vector cell a LoadVar instruction reads). -/
theorem c10_create_context :
    ∀ p : Program,
      (p.create_context).values.length = p.var_names.length ∧
      (∀ i, i < p.var_names.length →
        (p.create_context).get_by_index i = some (.fin 0)) ∧
      (∀ i d, i < p.var_names.length →
        (p.create_context).values.getD i d = .fin 0) ∧
      (∀ n m, p.eval p.create_context ≠ .error (.variableCountMismatch n m)) := by
  intro p
  refine ⟨by simp [Program.create_context, Context.with_capacity], ?_, ?_, ?_⟩
  · intro i h
    unfold Program.create_context Context.with_capacity Context.get_by_index
    simpa using get?_replicate_lt _ _ i h
  · intro i d h
    unfold Program.create_context Context.with_capacity
    exact getD_replicate_lt _ _ i d h
  · intro n m
    refine (c6_context_length_precondition p p.create_context).2 ?_ n m
    simp [Program.create_context, Context.with_capacity]

theorem c10_witness :
    ((compileOk "x + y").create_context.values.length =
      (compileOk "x + y").var_names.length) ∧
    ((compileOk "x + y").create_context.get_by_index 0 = some (.fin 0)) ∧
    ((compileOk "x + y").create_context.values.getD 1 (.fin 3) = .fin 0) ∧
    (∀ n m, (compileOk "x + y").eval (compileOk "x + y").create_context ≠
      .error (.variableCountMismatch n m)) := by
  obtain ⟨h1, h2, h3, h4⟩ := c10_create_context (compileOk "x + y")
  exact ⟨h1, h2 0 (by decide), h3 1 (.fin 3) (by decide), h4⟩

/-- C9: the caret operator is right-associative: the bp table gives it
right binding power one below its left binding power, the source
2 ^ 3 ^ 2 parses as 2 ^ (3 ^ 2), and the compiled program evaluates to
512 (not 64) in every context. -/
theorem c9_pow_right_assoc :
    bp_infix_op .caret = (30, 29) ∧
    parseSrc "2 ^ 3 ^ 2" =
      .ok (.Binary .pow (.Number (.fin 2))
        (.Binary .pow (.Number (.fin 3)) (.Number (.fin 2)))) ∧
    (∀ ctx, (compileOk "2 ^ 3 ^ 2").eval ctx = .ok (.fin 512)) := by
  refine ⟨rfl, rfl, ?_⟩
  intro ctx
  unfold Program.eval
  have h0 : (compileOk "2 ^ 3 ^ 2").var_names.length = 0 := by decide
  rw [h0]
  rw [if_neg (Nat.not_lt_zero _)]
  rfl

/-- C2 counterexample: compiling the source x * 0 succeeds, but the
variable-name list of the produced program is not the claimed singleton
list containing x: the optimizer rewrites the tree to the literal 0 before
lowering, so the variable never reaches the pool. -/
theorem c2_counterexample :
    compileSrc "x * 0" = .ok (compileOk "x * 0") ∧
    (compileOk "x * 0").var_names ≠ ["x"] :=
  ⟨rfl, by decide⟩

/-- C2 (amended): compiling x * 0 succeeds with constants pool exactly
the single entry 0.0, an empty variable-name list, and evaluation
returning 0.0 in every context. -/
theorem c2_mul_zero_compiles_to_zero :
    compileSrc "x * 0" = .ok (compileOk "x * 0") ∧
    (compileOk "x * 0").constants = [.fin 0] ∧
    (compileOk "x * 0").var_names = [] ∧
    (∀ ctx, (compileOk "x * 0").eval ctx = .ok (.fin 0)) := by
  refine ⟨rfl, by decide, by decide, ?_⟩
  intro ctx
  unfold Program.eval
  have h0 : (compileOk "x * 0").var_names.length = 0 := by decide
  rw [h0, if_neg (Nat.not_lt_zero _)]
  rfl

/-- C5: compiling 1/0 succeeds; evaluating the program reports the
division-by-zero error in every context; the optimizer never folds a Div
node whose optimized denominator is the literal 0.0; and at the
instruction level a Div errors exactly when the popped divisor compares
equal to 0.0, and otherwise pushes the quotient and continues. -/
theorem c5_division_by_zero_at_runtime :
    (compileSrc "1/0" = .ok (compileOk "1/0")) ∧
    (∀ ctx, (compileOk "1/0").eval ctx = .error .divisionByZero) ∧
    (∀ l r, optimize_expr r = .Number (.fin 0) →
      optimize_expr (.Binary .div l r) = .Binary .div (optimize_expr l) (.Number (.fin 0))) ∧
    (∀ (p : Program) (vars : List F64) (fuel pc : Nat) (b a : F64) (rest : List F64),
      pc < p.instructions.length → p.instructions.getD pc 0 = 5 →
      vmLoop p vars (fuel + 1) pc (b :: a :: rest) =
        if feq b (.fin 0) then .error .divisionByZero
        else vmLoop p vars fuel (pc + 1) (fdiv a b :: rest)) := by
  refine ⟨rfl, ?_, ?_, ?_⟩
  · intro ctx
    unfold Program.eval
    have h0 : (compileOk "1/0").var_names.length = 0 := by decide
    rw [h0, if_neg (Nat.not_lt_zero _)]
    rfl
  · intro l r hr
    rw [optimize_expr]
    rw [hr]
    cases hl : optimize_expr l with
    | Number a =>
      have hfz : feq (.fin 0) (.fin 0) = true := by decide
      simp [optBinary, hfz]
    | Variable name =>
      simp [optBinary, alg_rewrite, is_num]
      decide
    | Binary op2 l2 r2 =>
      simp [optBinary, alg_rewrite, is_num]
      intro h0
      exact absurd h0 (by decide)
    | Unary u e2 =>
      simp [optBinary, alg_rewrite, is_num]
      decide
    | Call f as =>
      simp [optBinary, alg_rewrite, is_num]
      decide
  · intro p vars fuel pc b a rest hlt hop
    rw [vmLoop, if_pos hlt]
    unfold vmExec
    rw [hop]

theorem c5_witness :
    ((compileOk "1/0").eval Context.new = .error .divisionByZero) ∧
    (optimize_expr (.Binary .div (.Variable "x") (.Number (.fin 0))) =
      .Binary .div (.Variable "x") (.Number (.fin 0))) ∧
    (vmLoop (compileOk "1/0") [] 1 6 [.fin 0, .fin 1] =
      .error .divisionByZero) := by
  refine ⟨c5_division_by_zero_at_runtime.2.1 Context.new, ?_, ?_⟩
  · exact c5_division_by_zero_at_runtime.2.2.1 (.Variable "x") (.Number (.fin 0)) rfl
  · rw [c5_division_by_zero_at_runtime.2.2.2 (compileOk "1/0") [] 0 6 (.fin 0) (.fin 1) []
      (by decide) (by decide)]
    decide

/-- Constants-pool growth step: add_constant keeps the pool free of
IEEE-equal duplicates. -/
theorem pairwise_feq_add_constant (p : Program) (v : F64)
    (h : List.Pairwise (fun a b => feq a b = false) p.constants) :
    List.Pairwise (fun a b => feq a b = false) (add_constant p v).2.constants := by
  unfold add_constant
  rcases hpos : position? (fun c => feq c v) p.constants with _ | i
  · simp only [hpos]
    rw [List.pairwise_append]
    refine ⟨h, List.pairwise_singleton _ _, ?_⟩
    intro a ha b hb
    rw [List.mem_singleton] at hb
    subst hb
    exact (position?_none_iff _ _).mp hpos a ha
  · simp only [hpos]
    exact h

theorem resolve_var_constants (p : Program) (name : String) :
    (resolve_var p name).2.constants = p.constants := by
  unfold resolve_var
  rcases hpos : position? (fun n => n == name) p.var_names with _ | i <;> simp [hpos]

theorem resolve_func_constants (p : Program) (name : String) :
    (resolve_func p name).2.constants = p.constants := by
  unfold resolve_func
  rcases hpos : position? (fun n => n == name) p.func_names with _ | i <;> simp [hpos]

mutual
theorem compile_expr_pairwise : ∀ (e : Expr) (p : Program),
    List.Pairwise (fun a b => feq a b = false) p.constants →
    List.Pairwise (fun a b => feq a b = false) (compile_expr e p).constants
  | .Number n, p, h => pairwise_feq_add_constant p n h
  | .Variable name, p, h => by
    show List.Pairwise _ (resolve_var p name).2.constants
    rw [resolve_var_constants]
    exact h
  | .Binary op l r, p, h =>
    compile_expr_pairwise r (compile_expr l p) (compile_expr_pairwise l p h)
  | .Unary u e, p, h => compile_expr_pairwise e p h
  | .Call f args, p, h => by
    show List.Pairwise _ (resolve_func (compile_args args p) f).2.constants
    rw [resolve_func_constants]
    exact compile_args_pairwise args p h
theorem compile_args_pairwise : ∀ (as : ExprList) (p : Program),
    List.Pairwise (fun a b => feq a b = false) p.constants →
    List.Pairwise (fun a b => feq a b = false) (compile_args as p).constants
  | .nil, _, h => h
  | .cons a as, p, h => compile_args_pairwise as (compile_expr a p) (compile_expr_pairwise a p h)
end

/-- C4 (amended): for every program produced by compiling any source, no
two entries of the constants pool compare equal under the IEEE ==
comparison the pool deduplication uses; bit-identical duplicates remain
possible only for NaN entries, which never compare ==-equal. -/
theorem c4_constant_pool_dedup_amended :
    ∀ (s : String) (p : Program), compileSrc s = .ok p →
      List.Pairwise (fun a b => feq a b = false) p.constants := by
  intro s p h
  unfold compileSrc at h
  rcases hp : parseSrc s with e | ast
  · rw [hp] at h
    cases h
  · rw [hp] at h
    cases h
    exact compile_expr_pairwise (optimize_expr ast) Program.new List.Pairwise.nil

theorem c4_witness :
    List.Pairwise (fun a b => feq a b = false) (compileOk "1 + x + 1 + 2").constants :=
  c4_constant_pool_dedup_amended "1 + x + 1 + 2" (compileOk "1 + x + 1 + 2") rfl

/-- C4 counterexample: compiling this source succeeds and produces a
constants pool holding the same NaN value twice (the fold of (0-1)^0.5 is
NaN, and NaN never compares ==-equal to a pool entry, so it is appended on
both occurrences): two bit-identical pool entries, refuting the claim as
stated. -/
theorem c4_counterexample :
    compileSrc "(0-1)^0.5 + x + (0-1)^0.5" =
      .ok (compileOk "(0-1)^0.5 + x + (0-1)^0.5") ∧
    (compileOk "(0-1)^0.5 + x + (0-1)^0.5").constants = [.nan, .nan] ∧
    ¬ List.Pairwise (fun a b : F64 => a ≠ b)
      (compileOk "(0-1)^0.5 + x + (0-1)^0.5").constants := by
  refine ⟨rfl, by decide, ?_⟩
  intro hcontra
  have h2 : (compileOk "(0-1)^0.5 + x + (0-1)^0.5").constants = [.nan, .nan] := by decide
  rw [h2] at hcontra
  exact (List.pairwise_cons.mp hcontra).1 .nan (by simp) rfl

theorem GrowsTo.grows_refl (l : List α) : GrowsTo l l := ⟨[], by simp⟩

theorem GrowsTo.grows_trans {a b c : List α} (h1 : GrowsTo a b) (h2 : GrowsTo b c) : GrowsTo a c := by
  obtain ⟨t1, rfl⟩ := h1
  obtain ⟨t2, rfl⟩ := h2
  exact ⟨t1 ++ t2, by simp⟩

theorem GrowsTo.app (l t : List α) : GrowsTo l (l ++ t) := ⟨t, by simp⟩

theorem GrowsTo.length_le {a b : List α} (h : GrowsTo a b) : a.length ≤ b.length := by
  obtain ⟨t, rfl⟩ := h
  simp

theorem GrowsTo.getD_lt {a b : List α} (h : GrowsTo a b) (i : Nat) (d : α)
    (hi : i < a.length) : b.getD i d = a.getD i d := by
  obtain ⟨t, rfl⟩ := h
  exact getD_append_lt a t i d hi

theorem getD_append_add (l m : List α) (k : Nat) (d : α) :
    (l ++ m).getD (l.length + k) d = m.getD k d := by
  induction l with
  | nil => simp
  | cons a as ih => simpa [Nat.succ_add] using ih

theorem ProgExtends.ext_refl (p : Program) : ProgExtends p p :=
  ⟨GrowsTo.grows_refl _, GrowsTo.grows_refl _, GrowsTo.grows_refl _, GrowsTo.grows_refl _, GrowsTo.grows_refl _⟩

theorem ProgExtends.ext_trans {p q r : Program} (h1 : ProgExtends p q) (h2 : ProgExtends q r) :
    ProgExtends p r :=
  ⟨h1.1.grows_trans h2.1, h1.2.1.grows_trans h2.2.1, h1.2.2.1.grows_trans h2.2.2.1,
   h1.2.2.2.1.grows_trans h2.2.2.2.1, h1.2.2.2.2.grows_trans h2.2.2.2.2⟩

theorem emit_byte_extends (p : Program) (b : Nat) : ProgExtends p (emit_byte p b) :=
  ⟨GrowsTo.app _ _, GrowsTo.grows_refl _, GrowsTo.grows_refl _, GrowsTo.grows_refl _, GrowsTo.grows_refl _⟩

theorem emit_u16_extends (p : Program) (v : Nat) : ProgExtends p (emit_u16 p v) :=
  ⟨GrowsTo.app _ _, GrowsTo.grows_refl _, GrowsTo.grows_refl _, GrowsTo.grows_refl _, GrowsTo.grows_refl _⟩

theorem add_constant_extends (p : Program) (v : F64) : ProgExtends p (add_constant p v).2 := by
  unfold add_constant
  rcases hpos : position? (fun c => feq c v) p.constants with _ | i
  · exact ⟨GrowsTo.grows_refl _, GrowsTo.app _ _, GrowsTo.grows_refl _, GrowsTo.grows_refl _, GrowsTo.grows_refl _⟩
  · exact ProgExtends.ext_refl _

theorem resolve_var_extends (p : Program) (name : String) :
    ProgExtends p (resolve_var p name).2 := by
  unfold resolve_var
  rcases hpos : position? (fun n => n == name) p.var_names with _ | i
  · exact ⟨GrowsTo.grows_refl _, GrowsTo.grows_refl _, GrowsTo.app _ _, GrowsTo.grows_refl _, GrowsTo.grows_refl _⟩
  · exact ProgExtends.ext_refl _

theorem resolve_func_extends (p : Program) (name : String) :
    ProgExtends p (resolve_func p name).2 := by
  unfold resolve_func
  rcases hpos : position? (fun n => n == name) p.func_names with _ | i
  · exact ⟨GrowsTo.grows_refl _, GrowsTo.grows_refl _, GrowsTo.grows_refl _, GrowsTo.app _ _, GrowsTo.app _ _⟩
  · exact ProgExtends.ext_refl _

mutual
theorem compile_expr_extends : ∀ (e : Expr) (p : Program), ProgExtends p (compile_expr e p)
  | .Number n, p =>
    ((add_constant_extends p n).ext_trans (emit_byte_extends _ 0)).ext_trans (emit_u16_extends _ _)
  | .Variable name, p =>
    ((resolve_var_extends p name).ext_trans (emit_byte_extends _ 1)).ext_trans (emit_u16_extends _ _)
  | .Binary op l r, p =>
    ((compile_expr_extends l p).ext_trans (compile_expr_extends r _)).ext_trans (emit_byte_extends _ _)
  | .Unary u e, p => (compile_expr_extends e p).ext_trans (emit_byte_extends _ 7)
  | .Call f args, p =>
    (((compile_args_extends args p).ext_trans (resolve_func_extends _ f)).ext_trans
      (emit_byte_extends _ 8)).ext_trans ((emit_u16_extends _ _).ext_trans (emit_byte_extends _ _))
theorem compile_args_extends : ∀ (as : ExprList) (p : Program), ProgExtends p (compile_args as p)
  | .nil, p => ProgExtends.ext_refl p
  | .cons a as, p => (compile_expr_extends a p).ext_trans (compile_args_extends as _)
end

theorem funcinv_emit_byte (p : Program) (b : Nat) (h : FuncInv p) : FuncInv (emit_byte p b) := h

theorem funcinv_emit_u16 (p : Program) (v : Nat) (h : FuncInv p) : FuncInv (emit_u16 p v) := h

theorem funcinv_add_constant (p : Program) (v : F64) (h : FuncInv p) :
    FuncInv (add_constant p v).2 := by
  unfold add_constant
  rcases hpos : position? (fun c => feq c v) p.constants with _ | i <;> exact h

theorem funcinv_resolve_var (p : Program) (name : String) (h : FuncInv p) :
    FuncInv (resolve_var p name).2 := by
  unfold resolve_var
  rcases hpos : position? (fun n => n == name) p.var_names with _ | i <;> exact h

theorem funcinv_resolve_func (p : Program) (name : String) (h : FuncInv p) :
    FuncInv (resolve_func p name).2 := by
  unfold resolve_func
  rcases hpos : position? (fun n => n == name) p.func_names with _ | i
  · show p.func_table ++ [builtinFor name] = (p.func_names ++ [name]).map builtinFor
    rw [List.map_append, h]
    rfl
  · exact h

mutual
theorem compile_expr_funcinv : ∀ (e : Expr) (p : Program),
    FuncInv p → FuncInv (compile_expr e p)
  | .Number n, p, h => funcinv_emit_u16 _ _ (funcinv_emit_byte _ _ (funcinv_add_constant p n h))
  | .Variable name, p, h =>
    funcinv_emit_u16 _ _ (funcinv_emit_byte _ _ (funcinv_resolve_var p name h))
  | .Binary op l r, p, h =>
    funcinv_emit_byte _ _ (compile_expr_funcinv r _ (compile_expr_funcinv l p h))
  | .Unary u e, p, h => funcinv_emit_byte _ _ (compile_expr_funcinv e p h)
  | .Call f args, p, h =>
    funcinv_emit_byte _ _ (funcinv_emit_u16 _ _ (funcinv_emit_byte _ _
      (funcinv_resolve_func _ f (compile_args_funcinv args p h))))
theorem compile_args_funcinv : ∀ (as : ExprList) (p : Program),
    FuncInv p → FuncInv (compile_args as p)
  | .nil, _, h => h
  | .cons a as, p, h => compile_args_funcinv as _ (compile_expr_funcinv a p h)
end

theorem nodup_resolve_var (p : Program) (name : String) (h : p.var_names.Nodup) :
    (resolve_var p name).2.var_names.Nodup := by
  unfold resolve_var
  rcases hpos : position? (fun n => n == name) p.var_names with _ | i
  · show (p.var_names ++ [name]).Nodup
    rw [List.nodup_append]
    refine ⟨h, List.nodup_singleton _, ?_⟩
    intro a ha hb
    rw [List.mem_singleton] at hb
    subst hb
    have := (position?_none_iff _ _).mp hpos a ha
    simp at this
  · exact h

theorem nodup_var_names_emit_byte (p : Program) (b : Nat) :
    (emit_byte p b).var_names = p.var_names := rfl

theorem nodup_var_names_emit_u16 (p : Program) (v : Nat) :
    (emit_u16 p v).var_names = p.var_names := rfl

theorem add_constant_var_names (p : Program) (v : F64) :
    (add_constant p v).2.var_names = p.var_names := by
  unfold add_constant
  rcases hpos : position? (fun c => feq c v) p.constants with _ | i <;> simp [hpos]

theorem resolve_func_var_names (p : Program) (name : String) :
    (resolve_func p name).2.var_names = p.var_names := by
  unfold resolve_func
  rcases hpos : position? (fun n => n == name) p.func_names with _ | i <;> simp [hpos]

mutual
theorem compile_expr_nodup : ∀ (e : Expr) (p : Program),
    p.var_names.Nodup → (compile_expr e p).var_names.Nodup
  | .Number n, p, h => by
    show (emit_u16 (emit_byte (add_constant p n).2 0) _).var_names.Nodup
    rw [nodup_var_names_emit_u16, nodup_var_names_emit_byte, add_constant_var_names]
    exact h
  | .Variable name, p, h => by
    show (emit_u16 (emit_byte (resolve_var p name).2 1) _).var_names.Nodup
    rw [nodup_var_names_emit_u16, nodup_var_names_emit_byte]
    exact nodup_resolve_var p name h
  | .Binary op l r, p, h => compile_expr_nodup r _ (compile_expr_nodup l p h)
  | .Unary u e, p, h => compile_expr_nodup e p h
  | .Call f args, p, h => by
    show (emit_byte (emit_u16 (emit_byte (resolve_func (compile_args args p) f).2 8) _) _
      ).var_names.Nodup
    rw [nodup_var_names_emit_byte, nodup_var_names_emit_u16, nodup_var_names_emit_byte,
      resolve_func_var_names]
    exact compile_args_nodup args p h
theorem compile_args_nodup : ∀ (as : ExprList) (p : Program),
    p.var_names.Nodup → (compile_args as p).var_names.Nodup
  | .nil, _, h => h
  | .cons a as, p, h => compile_args_nodup as _ (compile_expr_nodup a p h)
end

theorem add_constant_instructions (p : Program) (v : F64) :
    (add_constant p v).2.instructions = p.instructions := by
  unfold add_constant
  rcases hpos : position? (fun c => feq c v) p.constants with _ | i <;> simp [hpos]

theorem resolve_var_instructions (p : Program) (name : String) :
    (resolve_var p name).2.instructions = p.instructions := by
  unfold resolve_var
  rcases hpos : position? (fun n => n == name) p.var_names with _ | i <;> simp [hpos]

theorem resolve_func_instructions (p : Program) (name : String) :
    (resolve_func p name).2.instructions = p.instructions := by
  unfold resolve_func
  rcases hpos : position? (fun n => n == name) p.func_names with _ | i <;> simp [hpos]

/-- The constant pool cell named by the index add_constant returns holds
the added value, in every later program state within the u16 bounds. -/
theorem add_constant_spec (p : Program) (v : F64) (pf : Program)
    (hg : GrowsTo (add_constant p v).2.constants pf.constants)
    (hb : pf.constants.length < 65536) :
    (add_constant p v).1 < 65536 ∧
    pf.constants.getD (add_constant p v).1 (.fin 0) = v := by
  unfold add_constant at hg ⊢
  rcases hpos : position? (fun c => feq c v) p.constants with _ | i
  · rw [hpos] at hg
    simp only [hpos]
    have hlen : p.constants.length + 1 ≤ pf.constants.length := by
      have := hg.length_le
      simpa using this
    have hsmall : p.constants.length % 65536 = p.constants.length := Nat.mod_eq_of_lt (by omega)
    obtain ⟨t, ht⟩ := hg
    constructor
    · omega
    · rw [hsmall, ht, List.append_assoc]
      exact getD_append_len p.constants v t (F64.fin 0)
  · rw [hpos] at hg
    simp only [hpos]
    have hi : i < p.constants.length := position?_some_lt _ _ _ hpos
    have hlen : p.constants.length ≤ pf.constants.length := hg.length_le
    have hsmall : i % 65536 = i := Nat.mod_eq_of_lt (by omega)
    rw [hsmall]
    refine ⟨by omega, ?_⟩
    rw [hg.getD_lt i _ hi]
    exact feq_true_eq (position?_some_getD _ _ i (.fin 0) hpos)

/-- The variable index resolve_var returns names the resolved variable in
every later program state within the u16 bounds. -/
theorem resolve_var_spec (p : Program) (name : String) (pf : Program)
    (hg : GrowsTo (resolve_var p name).2.var_names pf.var_names)
    (hb : pf.var_names.length < 65536) :
    (resolve_var p name).1 < 65536 ∧
    (resolve_var p name).1 < pf.var_names.length ∧
    pf.var_names.getD (resolve_var p name).1 "" = name := by
  unfold resolve_var at hg ⊢
  rcases hpos : position? (fun n => n == name) p.var_names with _ | i
  · rw [hpos] at hg
    simp only [hpos]
    have hlen : p.var_names.length + 1 ≤ pf.var_names.length := by
      have := hg.length_le
      simpa using this
    have hsmall : p.var_names.length % 65536 = p.var_names.length := Nat.mod_eq_of_lt (by omega)
    obtain ⟨t, ht⟩ := hg
    rw [hsmall]
    refine ⟨by omega, by omega, ?_⟩
    rw [ht, List.append_assoc]
    exact getD_append_len p.var_names name t ""
  · rw [hpos] at hg
    simp only [hpos]
    have hi : i < p.var_names.length := position?_some_lt _ _ _ hpos
    have hlen : p.var_names.length ≤ pf.var_names.length := hg.length_le
    have hsmall : i % 65536 = i := Nat.mod_eq_of_lt (by omega)
    rw [hsmall]
    refine ⟨by omega, by omega, ?_⟩
    rw [hg.getD_lt i _ hi]
    have := position?_some_getD _ _ i "" hpos
    simpa using this

/-- The function index resolve_func returns names the resolved function in
every later program state within the u16 bounds. -/
theorem resolve_func_spec (p : Program) (name : String) (pf : Program)
    (hg : GrowsTo (resolve_func p name).2.func_names pf.func_names)
    (hb : pf.func_names.length < 65536) :
    (resolve_func p name).1 < 65536 ∧
    (resolve_func p name).1 < pf.func_names.length ∧
    pf.func_names.getD (resolve_func p name).1 "" = name := by
  unfold resolve_func at hg ⊢
  rcases hpos : position? (fun n => n == name) p.func_names with _ | i
  · rw [hpos] at hg
    simp only [hpos]
    have hlen : p.func_names.length + 1 ≤ pf.func_names.length := by
      have := hg.length_le
      simpa using this
    have hsmall : p.func_names.length % 65536 = p.func_names.length :=
      Nat.mod_eq_of_lt (by omega)
    obtain ⟨t, ht⟩ := hg
    rw [hsmall]
    refine ⟨by omega, by omega, ?_⟩
    rw [ht, List.append_assoc]
    exact getD_append_len p.func_names name t ""
  · rw [hpos] at hg
    simp only [hpos]
    have hi : i < p.func_names.length := position?_some_lt _ _ _ hpos
    have hlen : p.func_names.length ≤ pf.func_names.length := hg.length_le
    have hsmall : i % 65536 = i := Nat.mod_eq_of_lt (by omega)
    rw [hsmall]
    refine ⟨by omega, by omega, ?_⟩
    rw [hg.getD_lt i _ hi]
    have := position?_some_getD _ _ i "" hpos
    simpa using this

theorem compile_number_instr (n : F64) (p : Program) :
    (compile_expr (.Number n) p).instructions =
      p.instructions ++
        [0, (add_constant p n).1 / 256 % 256, (add_constant p n).1 % 256] := by
  show (emit_u16 (emit_byte (add_constant p n).2 0) (add_constant p n).1).instructions = _
  unfold emit_u16 emit_byte
  rw [add_constant_instructions]
  simp

theorem compile_variable_instr (name : String) (p : Program) :
    (compile_expr (.Variable name) p).instructions =
      p.instructions ++
        [1, (resolve_var p name).1 / 256 % 256, (resolve_var p name).1 % 256] := by
  show (emit_u16 (emit_byte (resolve_var p name).2 1) (resolve_var p name).1).instructions = _
  unfold emit_u16 emit_byte
  rw [resolve_var_instructions]
  simp

theorem compile_binary_instr (op : BinaryOp) (l r : Expr) (p : Program) :
    (compile_expr (.Binary op l r) p).instructions =
      (compile_expr r (compile_expr l p)).instructions ++ [binop_code op] := by
  rfl

theorem compile_unary_instr (u : UnaryOp) (e : Expr) (p : Program) :
    (compile_expr (.Unary u e) p).instructions =
      (compile_expr e p).instructions ++ [7] := by
  rfl

theorem compile_call_instr (f : String) (args : ExprList) (p : Program) :
    (compile_expr (.Call f args) p).instructions =
      (compile_args args p).instructions ++
        [8, (resolve_func (compile_args args p) f).1 / 256 % 256,
         (resolve_func (compile_args args p) f).1 % 256, exlen args % 256] := by
  show (emit_byte (emit_u16 (emit_byte (resolve_func (compile_args args p) f).2 8)
    (resolve_func (compile_args args p) f).1) (exlen args % 256)).instructions = _
  unfold emit_u16 emit_byte
  rw [resolve_func_instructions]
  simp

theorem readU16_at (l : List Nat) (idx : Nat) (h : idx < 65536) (t : List Nat) :
    readU16 (l ++ (idx / 256 % 256 :: idx % 256 :: t)) l.length = idx := by
  unfold readU16
  have h1 : (l ++ (idx / 256 % 256 :: idx % 256 :: t)).getD l.length 0 = idx / 256 % 256 := by
    have := getD_append_add l (idx / 256 % 256 :: idx % 256 :: t) 0 0
    simpa using this
  have h2 : (l ++ (idx / 256 % 256 :: idx % 256 :: t)).getD (l.length + 1) 0 = idx % 256 := by
    have := getD_append_add l (idx / 256 % 256 :: idx % 256 :: t) 1 0
    simpa using this
  rw [h1, h2]
  omega

mutual
theorem compile_expr_size : ∀ (e : Expr) (p : Program),
    p.instructions.length + osize e ≤ (compile_expr e p).instructions.length
  | .Number n, p => by
    rw [compile_number_instr]
    simp [osize]
  | .Variable name, p => by
    rw [compile_variable_instr]
    simp [osize]
  | .Binary op l r, p => by
    rw [compile_binary_instr]
    have h1 := compile_expr_size l p
    have h2 := compile_expr_size r (compile_expr l p)
    simp only [osize, List.length_append, List.length_cons, List.length_nil]
    omega
  | .Unary u e, p => by
    rw [compile_unary_instr]
    have h1 := compile_expr_size e p
    simp only [osize, List.length_append, List.length_cons, List.length_nil]
    omega
  | .Call f args, p => by
    rw [compile_call_instr]
    have h1 := compile_args_size args p
    simp only [osize, List.length_append, List.length_cons, List.length_nil]
    omega
theorem compile_args_size : ∀ (as : ExprList) (p : Program),
    p.instructions.length + osizeArgs as ≤ (compile_args as p).instructions.length
  | .nil, p => by simp [osizeArgs, compile_args]
  | .cons a as, p => by
    have h1 := compile_expr_size a p
    have h2 := compile_args_size as (compile_expr a p)
    simp only [osizeArgs, compile_args]
    omega
end

theorem vmLoop_succ (p : Program) (vars : List F64) (fuel pc : Nat) (stack : List F64)
    (h : pc < p.instructions.length) :
    vmLoop p vars (fuel + 1) pc stack = vmExec p vars (vmLoop p vars fuel) pc stack := by
  rw [vmLoop, if_pos h]

theorem vmLoop_end (p : Program) (vars : List F64) (fuel pc : Nat) (stack : List F64)
    (h : ¬ pc < p.instructions.length) :
    vmLoop p vars fuel pc stack = .ok stack := by
  cases fuel <;> rw [vmLoop] <;> rw [if_neg h]

theorem vmExec_loadconst (p : Program) (vars : List F64)
    (recur : Nat → List F64 → Except EvalError (List F64)) (pc : Nat) (stack : List F64)
    (h : p.instructions.getD pc 0 = 0) :
    vmExec p vars recur pc stack =
      recur (pc + 3) (p.constants.getD (readU16 p.instructions (pc + 1)) (.fin 0) :: stack) := by
  unfold vmExec
  rw [h]

theorem vmExec_loadvar (p : Program) (vars : List F64)
    (recur : Nat → List F64 → Except EvalError (List F64)) (pc : Nat) (stack : List F64)
    (h : p.instructions.getD pc 0 = 1) :
    vmExec p vars recur pc stack =
      recur (pc + 3) (vars.getD (readU16 p.instructions (pc + 1)) (.fin 0) :: stack) := by
  unfold vmExec
  rw [h]

theorem vmExec_add (p : Program) (vars : List F64)
    (recur : Nat → List F64 → Except EvalError (List F64)) (pc : Nat)
    (b a : F64) (rest : List F64) (h : p.instructions.getD pc 0 = 2) :
    vmExec p vars recur pc (b :: a :: rest) = recur (pc + 1) (fadd a b :: rest) := by
  unfold vmExec
  rw [h]

theorem vmExec_sub (p : Program) (vars : List F64)
    (recur : Nat → List F64 → Except EvalError (List F64)) (pc : Nat)
    (b a : F64) (rest : List F64) (h : p.instructions.getD pc 0 = 3) :
    vmExec p vars recur pc (b :: a :: rest) = recur (pc + 1) (fsub a b :: rest) := by
  unfold vmExec
  rw [h]

theorem vmExec_mul (p : Program) (vars : List F64)
    (recur : Nat → List F64 → Except EvalError (List F64)) (pc : Nat)
    (b a : F64) (rest : List F64) (h : p.instructions.getD pc 0 = 4) :
    vmExec p vars recur pc (b :: a :: rest) = recur (pc + 1) (fmul a b :: rest) := by
  unfold vmExec
  rw [h]

theorem vmExec_div (p : Program) (vars : List F64)
    (recur : Nat → List F64 → Except EvalError (List F64)) (pc : Nat)
    (b a : F64) (rest : List F64) (h : p.instructions.getD pc 0 = 5) :
    vmExec p vars recur pc (b :: a :: rest) =
      if feq b (.fin 0) then .error .divisionByZero
      else recur (pc + 1) (fdiv a b :: rest) := by
  unfold vmExec
  rw [h]

theorem vmExec_pow (p : Program) (vars : List F64)
    (recur : Nat → List F64 → Except EvalError (List F64)) (pc : Nat)
    (b a : F64) (rest : List F64) (h : p.instructions.getD pc 0 = 6) :
    vmExec p vars recur pc (b :: a :: rest) = recur (pc + 1) (fpow a b :: rest) := by
  unfold vmExec
  rw [h]

theorem vmExec_neg (p : Program) (vars : List F64)
    (recur : Nat → List F64 → Except EvalError (List F64)) (pc : Nat)
    (a : F64) (rest : List F64) (h : p.instructions.getD pc 0 = 7) :
    vmExec p vars recur pc (a :: rest) = recur (pc + 1) (fneg a :: rest) := by
  unfold vmExec
  rw [h]

theorem vmExec_call (p : Program) (vars : List F64)
    (recur : Nat → List F64 → Except EvalError (List F64)) (pc : Nat) (stack : List F64)
    (h : p.instructions.getD pc 0 = 8) :
    vmExec p vars recur pc stack =
      if p.func_table.length ≤ readU16 p.instructions (pc + 1) then
        .error (.invalidFunctionIndex (readU16 p.instructions (pc + 1)))
      else if stack.length < p.instructions.getD (pc + 3) 0 then
        .error .stackUnderflowInCall
      else
        recur (pc + 4)
          (p.func_table.getD (readU16 p.instructions (pc + 1)) builtin_unknown
              ((stack.take (p.instructions.getD (pc + 3) 0)).reverse)
            :: stack.drop (p.instructions.getD (pc + 3) 0)) := by
  unfold vmExec
  rw [h]

theorem evalArgs_length : ∀ (as : ExprList) (env : String → F64) (vs : List F64),
    evalArgs as env = .ok vs → vs.length = exlen as
  | .nil, _, vs, h => by
    rw [evalArgs] at h
    cases h
    rfl
  | .cons a tl, env, vs, h => by
    rw [evalArgs] at h
    rcases ha : evalAst a env with er | v <;> rw [ha] at h
    · cases h
    · rcases htl : evalArgs tl env with er | ws <;> rw [htl] at h
      · cases h
      · cases h
        simpa [exlen] using evalArgs_length tl env ws htl

mutual
/-- Compiled-code simulation: the VM, started at the byte offset where the
code compile_expr emitted for e begins (inside any final program pf whose
pools extend the compiler state, within the u16 and u8 cast bounds, with
the function table the registry image of the name list, and with the
variable vector agreeing with the environment on the variable table),
computes exactly the reference semantics of e: it pushes the value and
advances to the end of the emitted code, or stops with the same error. -/
theorem compile_expr_sim : ∀ (e : Expr) (p0 pf : Program) (env : String → F64)
    (vars : List F64) (fuel : Nat) (stack : List F64),
    ProgExtends (compile_expr e p0) pf →
    FuncInv pf →
    pf.constants.length < 65536 →
    pf.var_names.length < 65536 →
    pf.func_names.length < 65536 →
    arityOk e = true →
    (∀ i, i < pf.var_names.length → vars.getD i (.fin 0) = env (pf.var_names.getD i "")) →
    vmLoop pf vars (fuel + osize e) p0.instructions.length stack =
      (match evalAst e env with
       | .ok v => vmLoop pf vars fuel (compile_expr e p0).instructions.length (v :: stack)
       | .error er => .error er)
  | .Number n, p0, pf, env, vars, fuel, stack, hx, hfi, hbc, hbv, hbf, har, hvars => by
    obtain ⟨t, ht⟩ := hx.1
    rw [compile_number_instr] at ht
    have hgc : GrowsTo (add_constant p0 n).2.constants pf.constants := hx.2.1
    obtain ⟨hidx, hval⟩ := add_constant_spec p0 n pf hgc hbc
    have hpc : p0.instructions.length < pf.instructions.length := by
      rw [ht]
      simp only [List.length_append, List.length_cons, List.length_nil]
      omega
    have hop : pf.instructions.getD p0.instructions.length 0 = 0 := by
      rw [ht, List.append_assoc]
      have := getD_append_add p0.instructions
        ([0, (add_constant p0 n).1 / 256 % 256, (add_constant p0 n).1 % 256] ++ t) 0 0
      simpa using this
    have hread : readU16 pf.instructions (p0.instructions.length + 1) =
        (add_constant p0 n).1 := by
      rw [ht]
      have hsplit : (p0.instructions ++
          [0, (add_constant p0 n).1 / 256 % 256, (add_constant p0 n).1 % 256]) ++ t =
          (p0.instructions ++ [0]) ++
            ((add_constant p0 n).1 / 256 % 256 :: (add_constant p0 n).1 % 256 :: t) := by
        simp
      rw [hsplit]
      have hlen : p0.instructions.length + 1 = (p0.instructions ++ [0]).length := by simp
      rw [hlen]
      exact readU16_at _ _ hidx t
    have hend : (compile_expr (.Number n) p0).instructions.length =
        p0.instructions.length + 3 := by
      rw [compile_number_instr]
      simp
    rw [show fuel + osize (.Number n) = fuel + 1 from rfl]
    rw [vmLoop_succ pf vars fuel _ stack hpc,
      vmExec_loadconst pf vars _ _ stack hop, hread, hval]
    rw [show evalAst (.Number n) env = .ok n from rfl]
    rw [hend]
  | .Variable name, p0, pf, env, vars, fuel, stack, hx, hfi, hbc, hbv, hbf, har, hvars => by
    obtain ⟨t, ht⟩ := hx.1
    rw [compile_variable_instr] at ht
    have hgv : GrowsTo (resolve_var p0 name).2.var_names pf.var_names := hx.2.2.1
    obtain ⟨hidx, hlt, hname⟩ := resolve_var_spec p0 name pf hgv hbv
    have hpc : p0.instructions.length < pf.instructions.length := by
      rw [ht]
      simp only [List.length_append, List.length_cons, List.length_nil]
      omega
    have hop : pf.instructions.getD p0.instructions.length 0 = 1 := by
      rw [ht, List.append_assoc]
      have := getD_append_add p0.instructions
        ([1, (resolve_var p0 name).1 / 256 % 256, (resolve_var p0 name).1 % 256] ++ t) 0 0
      simpa using this
    have hread : readU16 pf.instructions (p0.instructions.length + 1) =
        (resolve_var p0 name).1 := by
      rw [ht]
      have hsplit : (p0.instructions ++
          [1, (resolve_var p0 name).1 / 256 % 256, (resolve_var p0 name).1 % 256]) ++ t =
          (p0.instructions ++ [1]) ++
            ((resolve_var p0 name).1 / 256 % 256 :: (resolve_var p0 name).1 % 256 :: t) := by
        simp
      rw [hsplit]
      have hlen : p0.instructions.length + 1 = (p0.instructions ++ [1]).length := by simp
      rw [hlen]
      exact readU16_at _ _ hidx t
    have hend : (compile_expr (.Variable name) p0).instructions.length =
        p0.instructions.length + 3 := by
      rw [compile_variable_instr]
      simp
    rw [show fuel + osize (.Variable name) = fuel + 1 from rfl]
    rw [vmLoop_succ pf vars fuel _ stack hpc,
      vmExec_loadvar pf vars _ _ stack hop, hread]
    rw [hvars (resolve_var p0 name).1 hlt, hname]
    rw [show evalAst (.Variable name) env = .ok (env name) from rfl]
    rw [hend]
  | .Binary op l r, p0, pf, env, vars, fuel, stack, hx, hfi, hbc, hbv, hbf, har, hvars => by
    have harlr : arityOk l = true ∧ arityOk r = true := by
      rw [arityOk, Bool.and_eq_true] at har
      exact har
    have hx2 : ProgExtends (compile_expr r (compile_expr l p0)) pf :=
      ProgExtends.ext_trans (emit_byte_extends _ (binop_code op)) hx
    have hx1 : ProgExtends (compile_expr l p0) pf :=
      ProgExtends.ext_trans (compile_expr_extends r _) hx2
    have heq : fuel + osize (.Binary op l r) = fuel + 1 + osize r + osize l := by
      simp only [osize]
      omega
    rw [heq]
    rw [compile_expr_sim l p0 pf env vars (fuel + 1 + osize r) stack hx1 hfi hbc hbv hbf
      harlr.1 hvars]
    rcases hel : evalAst l env with er | va
    · have hB : evalAst (.Binary op l r) env = .error er := by rw [evalAst, hel]
      simp only [hel, hB]
    · simp only [hel]
      rw [compile_expr_sim r (compile_expr l p0) pf env vars (fuel + 1) (va :: stack) hx2
        hfi hbc hbv hbf harlr.2 hvars]
      rcases her : evalAst r env with er | vb
      · have hB : evalAst (.Binary op l r) env = .error er := by rw [evalAst, hel, her]
        simp only [her, hB]
      · simp only [her]
        obtain ⟨t, ht⟩ := hx.1
        rw [compile_binary_instr] at ht
        have hpc : (compile_expr r (compile_expr l p0)).instructions.length <
            pf.instructions.length := by
          rw [ht]
          simp
        have hop : pf.instructions.getD
            (compile_expr r (compile_expr l p0)).instructions.length 0 = binop_code op := by
          rw [ht, List.append_assoc]
          have := getD_append_add (compile_expr r (compile_expr l p0)).instructions
            ([binop_code op] ++ t) 0 0
          simpa using this
        have hend : (compile_expr (.Binary op l r) p0).instructions.length =
            (compile_expr r (compile_expr l p0)).instructions.length + 1 := by
          rw [compile_binary_instr]
          simp
        have hB : evalAst (.Binary op l r) env = applyBin op va vb := by
          rw [evalAst, hel, her]
        rw [vmLoop_succ pf vars fuel _ _ hpc, hB, hend]
        cases op with
        | add =>
          rw [vmExec_add pf vars _ _ vb va _ hop]
          rw [show applyBin .add va vb = .ok (fadd va vb) from rfl]
        | sub =>
          rw [vmExec_sub pf vars _ _ vb va _ hop]
          rw [show applyBin .sub va vb = .ok (fsub va vb) from rfl]
        | mul =>
          rw [vmExec_mul pf vars _ _ vb va _ hop]
          rw [show applyBin .mul va vb = .ok (fmul va vb) from rfl]
        | div =>
          rw [vmExec_div pf vars _ _ vb va _ hop]
          rw [show applyBin .div va vb =
            (if feq vb (.fin 0) then .error .divisionByZero else .ok (fdiv va vb)) from rfl]
          by_cases hz : feq vb (.fin 0) = true
          · simp only [hz, if_true]
          · simp [hz]
        | pow =>
          rw [vmExec_pow pf vars _ _ vb va _ hop]
          rw [show applyBin .pow va vb = .ok (fpow va vb) from rfl]
  | .Unary u e, p0, pf, env, vars, fuel, stack, hx, hfi, hbc, hbv, hbf, har, hvars => by
    have hare : arityOk e = true := by
      rw [arityOk] at har
      exact har
    have hx1 : ProgExtends (compile_expr e p0) pf :=
      ProgExtends.ext_trans (emit_byte_extends _ 7) hx
    have heq : fuel + osize (.Unary u e) = fuel + 1 + osize e := by
      simp only [osize]
      omega
    rw [heq]
    rw [compile_expr_sim e p0 pf env vars (fuel + 1) stack hx1 hfi hbc hbv hbf hare hvars]
    rcases he : evalAst e env with er | v
    · have hB : evalAst (.Unary u e) env = .error er := by rw [evalAst, he]
      simp only [he, hB]
    · simp only [he]
      obtain ⟨t, ht⟩ := hx.1
      rw [compile_unary_instr] at ht
      have hpc : (compile_expr e p0).instructions.length < pf.instructions.length := by
        rw [ht]
        simp
      have hop : pf.instructions.getD (compile_expr e p0).instructions.length 0 = 7 := by
        rw [ht, List.append_assoc]
        have := getD_append_add (compile_expr e p0).instructions ([7] ++ t) 0 0
        simpa using this
      have hend : (compile_expr (.Unary u e) p0).instructions.length =
          (compile_expr e p0).instructions.length + 1 := by
        rw [compile_unary_instr]
        simp
      have hB : evalAst (.Unary u e) env = .ok (fneg v) := by rw [evalAst, he]
      rw [vmLoop_succ pf vars fuel _ _ hpc, vmExec_neg pf vars _ _ v _ hop, hB, hend]
  | .Call f args, p0, pf, env, vars, fuel, stack, hx, hfi, hbc, hbv, hbf, har, hvars => by
    have harc : exlen args < 256 ∧ arityOkArgs args = true := by
      rw [arityOk, Bool.and_eq_true] at har
      exact ⟨of_decide_eq_true har.1, har.2⟩
    have hxr : ProgExtends (resolve_func (compile_args args p0) f).2 pf := by
      refine ProgExtends.ext_trans ?_ hx
      exact ProgExtends.ext_trans (emit_byte_extends _ 8)
        (ProgExtends.ext_trans (emit_u16_extends _ _) (emit_byte_extends _ _))
    have hxa : ProgExtends (compile_args args p0) pf :=
      ProgExtends.ext_trans (resolve_func_extends _ f) hxr
    have heq : fuel + osize (.Call f args) = fuel + 1 + osizeArgs args := by
      simp only [osize]
      omega
    rw [heq]
    rw [compile_args_sim args p0 pf env vars (fuel + 1) stack hxa hfi hbc hbv hbf harc.2 hvars]
    rcases hargs : evalArgs args env with er | vs
    · have hB : evalAst (.Call f args) env = .error er := by rw [evalAst, hargs]
      simp only [hargs, hB]
    · simp only [hargs]
      obtain ⟨t, ht⟩ := hx.1
      rw [compile_call_instr] at ht
      have hpc : (compile_args args p0).instructions.length < pf.instructions.length := by
        rw [ht]
        simp
      have hop : pf.instructions.getD (compile_args args p0).instructions.length 0 = 8 := by
        rw [ht, List.append_assoc]
        have := getD_append_add (compile_args args p0).instructions
          ([8, (resolve_func (compile_args args p0) f).1 / 256 % 256,
            (resolve_func (compile_args args p0) f).1 % 256, exlen args % 256] ++ t) 0 0
        simpa using this
      have hgf : GrowsTo (resolve_func (compile_args args p0) f).2.func_names
          pf.func_names := hxr.2.2.2.1
      obtain ⟨hflt, hfidx, hfname⟩ := resolve_func_spec (compile_args args p0) f pf hgf hbf
      have hread : readU16 pf.instructions ((compile_args args p0).instructions.length + 1) =
          (resolve_func (compile_args args p0) f).1 := by
        rw [ht]
        have hsplit : ((compile_args args p0).instructions ++
            [8, (resolve_func (compile_args args p0) f).1 / 256 % 256,
             (resolve_func (compile_args args p0) f).1 % 256, exlen args % 256]) ++ t =
            ((compile_args args p0).instructions ++ [8]) ++
              ((resolve_func (compile_args args p0) f).1 / 256 % 256 ::
               (resolve_func (compile_args args p0) f).1 % 256 :: (exlen args % 256 :: t)) := by
          simp
        rw [hsplit]
        have hlen : (compile_args args p0).instructions.length + 1 =
            ((compile_args args p0).instructions ++ [8]).length := by simp
        rw [hlen]
        exact readU16_at _ _ hflt _
      have hac : pf.instructions.getD ((compile_args args p0).instructions.length + 3) 0 =
          exlen args % 256 := by
        rw [ht, List.append_assoc]
        have := getD_append_add (compile_args args p0).instructions
          ([8, (resolve_func (compile_args args p0) f).1 / 256 % 256,
            (resolve_func (compile_args args p0) f).1 % 256, exlen args % 256] ++ t) 3 0
        simpa using this
      have hmod : exlen args % 256 = exlen args := Nat.mod_eq_of_lt harc.1
      have hvs : vs.length = exlen args := evalArgs_length args env vs hargs
      have hftlen : pf.func_table.length = pf.func_names.length := by
        rw [hfi]
        simp
      rw [vmLoop_succ pf vars fuel _ _ hpc, vmExec_call pf vars _ _ _ hop, hread, hac, hmod]
      rw [if_neg (by omega)]
      have hstack : ¬ ((vs.reverse ++ stack).length < exlen args) := by
        simp only [List.length_append, List.length_reverse]
        omega
      rw [if_neg hstack]
      have htake : (vs.reverse ++ stack).take (exlen args) = vs.reverse := by
        rw [show exlen args = vs.reverse.length from by simp [hvs]]
        exact List.take_left _ _
      have hdrop : (vs.reverse ++ stack).drop (exlen args) = stack := by
        rw [show exlen args = vs.reverse.length from by simp [hvs]]
        exact List.drop_left _ _
      rw [htake, hdrop, List.reverse_reverse]
      have hfval : pf.func_table.getD (resolve_func (compile_args args p0) f).1
          builtin_unknown = builtinFor f := by
        rw [hfi]
        rw [getD_map_lt builtinFor pf.func_names _ _ "" (by omega)]
        rw [hfname]
      rw [hfval]
      have hB : evalAst (.Call f args) env = .ok (builtinFor f vs) := by rw [evalAst, hargs]
      have hend : (compile_expr (.Call f args) p0).instructions.length =
          (compile_args args p0).instructions.length + 4 := by
        rw [compile_call_instr]
        simp
      rw [hB, hend]
/-- Simulation for argument lists: the values are pushed in source order
(so they sit reversed on the stack, whose top is the list head). -/
theorem compile_args_sim : ∀ (as : ExprList) (p0 pf : Program) (env : String → F64)
    (vars : List F64) (fuel : Nat) (stack : List F64),
    ProgExtends (compile_args as p0) pf →
    FuncInv pf →
    pf.constants.length < 65536 →
    pf.var_names.length < 65536 →
    pf.func_names.length < 65536 →
    arityOkArgs as = true →
    (∀ i, i < pf.var_names.length → vars.getD i (.fin 0) = env (pf.var_names.getD i "")) →
    vmLoop pf vars (fuel + osizeArgs as) p0.instructions.length stack =
      (match evalArgs as env with
       | .ok vs =>
         vmLoop pf vars fuel (compile_args as p0).instructions.length (vs.reverse ++ stack)
       | .error er => .error er)
  | .nil, p0, pf, env, vars, fuel, stack, hx, hfi, hbc, hbv, hbf, har, hvars => by
    simp only [evalArgs]
    simp [osizeArgs, compile_args]
  | .cons a tl, p0, pf, env, vars, fuel, stack, hx, hfi, hbc, hbv, hbf, har, hvars => by
    have hara : arityOk a = true ∧ arityOkArgs tl = true := by
      rw [arityOkArgs, Bool.and_eq_true] at har
      exact har
    have hxa2 : ProgExtends (compile_args tl (compile_expr a p0)) pf := hx
    have hxa1 : ProgExtends (compile_expr a p0) pf :=
      ProgExtends.ext_trans (compile_args_extends tl _) hxa2
    have heq : fuel + osizeArgs (.cons a tl) = fuel + osizeArgs tl + osize a := by
      simp only [osizeArgs]
      omega
    rw [heq]
    rw [compile_expr_sim a p0 pf env vars (fuel + osizeArgs tl) stack hxa1 hfi hbc hbv hbf
      hara.1 hvars]
    rcases hea : evalAst a env with er | v
    · have hB : evalArgs (.cons a tl) env = .error er := by rw [evalArgs, hea]
      simp only [hea, hB]
    · simp only [hea]
      rw [compile_args_sim tl (compile_expr a p0) pf env vars fuel (v :: stack) hxa2 hfi
        hbc hbv hbf hara.2 hvars]
      rcases hetl : evalArgs tl env with er | vs
      · have hB : evalArgs (.cons a tl) env = .error er := by rw [evalArgs, hea, hetl]
        simp only [hetl, hB]
      · have hB : evalArgs (.cons a tl) env = .ok (v :: vs) := by rw [evalArgs, hea, hetl]
        simp only [hetl, hB]
        have hrev : (v :: vs).reverse ++ stack = vs.reverse ++ (v :: stack) := by simp
        rw [hrev]
        rfl
end

theorem isFinOk_elim (r : Except EvalError F64) (h : isFinOk r = true) :
    ∃ q, r = .ok (.fin q) ∧ q.Reduced := by
  rcases r with er | v
  · simp [isFinOk] at h
  · rcases v with q | _ | _ | _
    · exact ⟨q, rfl, of_decide_eq_true (by simpa [isFinOk, isFin] using h)⟩
    · simp [isFinOk, isFin] at h
    · simp [isFinOk, isFin] at h
    · simp [isFinOk, isFin] at h

theorem totalFinite_ok (e : Expr) (env : String → F64) (h : totalFinite e env = true) :
    ∃ q, evalAst e env = .ok (.fin q) ∧ q.Reduced := by
  cases e with
  | Number n =>
    rw [totalFinite] at h
    obtain ⟨q, hq, hr⟩ := isFinOk_elim (.ok n) (by simpa [isFinOk] using h)
    exact ⟨q, by rw [show evalAst (.Number n) env = .ok n from rfl]; exact hq, hr⟩
  | Variable name =>
    rw [totalFinite] at h
    obtain ⟨q, hq, hr⟩ := isFinOk_elim (.ok (env name)) (by simpa [isFinOk] using h)
    exact ⟨q, by rw [show evalAst (.Variable name) env = .ok (env name) from rfl]; exact hq, hr⟩
  | Binary op l r =>
    rw [totalFinite] at h
    simp only [Bool.and_eq_true] at h
    exact isFinOk_elim _ h.2
  | Unary u e =>
    rw [totalFinite] at h
    simp only [Bool.and_eq_true] at h
    exact isFinOk_elim _ h.2
  | Call f args =>
    rw [totalFinite] at h
    simp only [Bool.and_eq_true] at h
    exact isFinOk_elim _ h.2

theorem is_num_elim (e : Expr) (v : MQ) (h : is_num e v = true) : e = .Number (.fin v) := by
  cases e with
  | Number n =>
    cases n with
    | fin q =>
      rw [is_num] at h
      rw [show q = v from by simpa using h]
    | inf => simp [is_num] at h
    | ninf => simp [is_num] at h
    | nan => simp [is_num] at h
  | Variable name => simp [is_num] at h
  | Binary op l r => simp [is_num] at h
  | Unary u e => simp [is_num] at h
  | Call f args => simp [is_num] at h

theorem evalAst_binary_eval (op : BinaryOp) (l r : Expr) (env : String → F64) (a b : F64)
    (hl : evalAst l env = .ok a) (hr : evalAst r env = .ok b) :
    evalAst (.Binary op l r) env = applyBin op a b := by
  rw [evalAst, hl, hr]

theorem evalAst_binary_congr (op : BinaryOp) (l1 r1 l2 r2 : Expr) (env : String → F64)
    (hl : evalAst l1 env = evalAst l2 env) (hr : evalAst r1 env = evalAst r2 env) :
    evalAst (.Binary op l1 r1) env = evalAst (.Binary op l2 r2) env := by
  rw [evalAst, hl, hr, ← evalAst]

/-- The algebraic-identity rewrites preserve the value whenever both
operands evaluate to finite values in reduced form: the side condition
under which the spec declares them valid. -/
theorem alg_rewrite_sound (op : BinaryOp) (left right : Expr) (env : String → F64)
    (hl : ∃ ql, evalAst left env = .ok (.fin ql) ∧ ql.Reduced)
    (hr : ∃ qr, evalAst right env = .ok (.fin qr) ∧ qr.Reduced) :
    evalAst (alg_rewrite op left right) env = evalAst (.Binary op left right) env := by
  obtain ⟨ql, hql, hqlr⟩ := hl
  obtain ⟨qr, hqr, hqrr⟩ := hr
  rw [alg_rewrite]
  by_cases h1 : op = .add ∧ is_num left 0 = true
  · rw [if_pos h1]
    obtain ⟨rfl, hnum⟩ := h1
    have hleft := is_num_elim _ _ hnum
    subst hleft
    rw [hqr, evalAst_binary_eval .add (.Number (.fin 0)) right env (.fin 0) (.fin qr) rfl hqr]
    rw [show applyBin .add (.fin 0) (.fin qr) = .ok (fadd (.fin 0) (.fin qr)) from rfl]
    rw [fadd_zero_left qr hqrr]
  rw [if_neg h1]
  by_cases h2 : op = .add ∧ is_num right 0 = true
  · rw [if_pos h2]
    obtain ⟨rfl, hnum⟩ := h2
    have hright := is_num_elim _ _ hnum
    subst hright
    rw [hql, evalAst_binary_eval .add left (.Number (.fin 0)) env (.fin ql) (.fin 0) hql rfl]
    rw [show applyBin .add (.fin ql) (.fin 0) = .ok (fadd (.fin ql) (.fin 0)) from rfl]
    rw [fadd_zero ql hqlr]
  rw [if_neg h2]
  by_cases h3 : op = .sub ∧ is_num right 0 = true
  · rw [if_pos h3]
    obtain ⟨rfl, hnum⟩ := h3
    have hright := is_num_elim _ _ hnum
    subst hright
    rw [hql, evalAst_binary_eval .sub left (.Number (.fin 0)) env (.fin ql) (.fin 0) hql rfl]
    rw [show applyBin .sub (.fin ql) (.fin 0) = .ok (fsub (.fin ql) (.fin 0)) from rfl]
    rw [fsub_zero ql hqlr]
  rw [if_neg h3]
  by_cases h4 : op = .mul ∧ is_num left 0 = true
  · rw [if_pos h4]
    obtain ⟨rfl, hnum⟩ := h4
    have hleft := is_num_elim _ _ hnum
    subst hleft
    rw [show evalAst (.Number (.fin 0)) env = .ok (.fin 0) from rfl,
      evalAst_binary_eval .mul (.Number (.fin 0)) right env (.fin 0) (.fin qr) rfl hqr,
      show applyBin .mul (.fin 0) (.fin qr) = .ok (fmul (.fin 0) (.fin qr)) from rfl,
      fmul_zero_left qr hqrr]
  rw [if_neg h4]
  by_cases h5 : op = .mul ∧ is_num right 0 = true
  · rw [if_pos h5]
    obtain ⟨rfl, hnum⟩ := h5
    have hright := is_num_elim _ _ hnum
    subst hright
    rw [show evalAst (.Number (.fin 0)) env = .ok (.fin 0) from rfl,
      evalAst_binary_eval .mul left (.Number (.fin 0)) env (.fin ql) (.fin 0) hql rfl,
      show applyBin .mul (.fin ql) (.fin 0) = .ok (fmul (.fin ql) (.fin 0)) from rfl,
      fmul_zero ql hqlr]
  rw [if_neg h5]
  by_cases h6 : op = .mul ∧ is_num left 1 = true
  · rw [if_pos h6]
    obtain ⟨rfl, hnum⟩ := h6
    have hleft := is_num_elim _ _ hnum
    subst hleft
    rw [hqr, evalAst_binary_eval .mul (.Number (.fin 1)) right env (.fin 1) (.fin qr) rfl hqr]
    rw [show applyBin .mul (.fin 1) (.fin qr) = .ok (fmul (.fin 1) (.fin qr)) from rfl]
    rw [fmul_one_left qr hqrr]
  rw [if_neg h6]
  by_cases h7 : op = .mul ∧ is_num right 1 = true
  · rw [if_pos h7]
    obtain ⟨rfl, hnum⟩ := h7
    have hright := is_num_elim _ _ hnum
    subst hright
    rw [hql, evalAst_binary_eval .mul left (.Number (.fin 1)) env (.fin ql) (.fin 1) hql rfl]
    rw [show applyBin .mul (.fin ql) (.fin 1) = .ok (fmul (.fin ql) (.fin 1)) from rfl]
    rw [fmul_one ql hqlr]
  rw [if_neg h7]
  by_cases h8 : op = .div ∧ is_num right 1 = true
  · rw [if_pos h8]
    obtain ⟨rfl, hnum⟩ := h8
    have hright := is_num_elim _ _ hnum
    subst hright
    rw [hql, evalAst_binary_eval .div left (.Number (.fin 1)) env (.fin ql) (.fin 1) hql rfl]
    have happ : applyBin .div (.fin ql) (.fin 1) = .ok (fdiv (.fin ql) (.fin 1)) := by
      simp only [applyBin]
      rw [if_neg (by decide)]
    rw [happ, fdiv_one ql hqlr]
  rw [if_neg h8]
  by_cases h9 : op = .pow ∧ is_num right 0 = true
  · rw [if_pos h9]
    obtain ⟨rfl, hnum⟩ := h9
    have hright := is_num_elim _ _ hnum
    subst hright
    rw [show evalAst (.Number (.fin 1)) env = .ok (.fin 1) from rfl,
      evalAst_binary_eval .pow left (.Number (.fin 0)) env (.fin ql) (.fin 0) hql rfl,
      show applyBin .pow (.fin ql) (.fin 0) = .ok (fpow (.fin ql) (.fin 0)) from rfl,
      fpow_zero_right (.fin ql)]
  rw [if_neg h9]
  by_cases h10 : op = .pow ∧ is_num right 1 = true
  · rw [if_pos h10]
    obtain ⟨rfl, hnum⟩ := h10
    have hright := is_num_elim _ _ hnum
    subst hright
    rw [hql, evalAst_binary_eval .pow left (.Number (.fin 1)) env (.fin ql) (.fin 1) hql rfl]
    rw [show applyBin .pow (.fin ql) (.fin 1) = .ok (fpow (.fin ql) (.fin 1)) from rfl]
    rw [fpow_one_right (.fin ql)]
  rw [if_neg h10]

/-- The constant-folding body is unconditionally value-preserving: the
folded operation is the one the VM would apply to the same operands. -/
theorem optBinary_sound (op : BinaryOp) (left right : Expr) (env : String → F64)
    (hl : ∃ ql, evalAst left env = .ok (.fin ql) ∧ ql.Reduced)
    (hr : ∃ qr, evalAst right env = .ok (.fin qr) ∧ qr.Reduced) :
    evalAst (optBinary op left right) env = evalAst (.Binary op left right) env := by
  cases left with
  | Number a =>
    cases right with
    | Number b =>
      cases op with
      | add => rfl
      | sub => rfl
      | mul => rfl
      | pow => rfl
      | div =>
        by_cases hz : feq b (.fin 0) = true
        · simp only [optBinary, hz, if_true]
        · simp only [optBinary, hz]
          rw [if_neg (by simp [hz])]
          rw [show evalAst (.Number (fdiv a b)) env = .ok (fdiv a b) from rfl]
          rw [evalAst_binary_eval .div (.Number a) (.Number b) env a b rfl rfl]
          simp only [applyBin]
          rw [if_neg (by simp [hz])]
    | Variable y => exact alg_rewrite_sound op _ _ env hl hr
    | Binary o3 l3 r3 => exact alg_rewrite_sound op _ _ env hl hr
    | Unary u3 e3 => exact alg_rewrite_sound op _ _ env hl hr
    | Call f3 a3 => exact alg_rewrite_sound op _ _ env hl hr
  | Variable x => exact alg_rewrite_sound op _ _ env hl hr
  | Binary o2 l2 r2 => exact alg_rewrite_sound op _ _ env hl hr
  | Unary u2 e2 => exact alg_rewrite_sound op _ _ env hl hr
  | Call f2 a2 => exact alg_rewrite_sound op _ _ env hl hr

/-- The Unary body of the optimizer is unconditionally value-preserving. -/
theorem optUnary_sound (u : UnaryOp) (e : Expr) (env : String → F64) :
    evalAst (optUnary u e) env = evalAst (.Unary u e) env := by
  cases u
  cases e <;> rfl

mutual
/-- Optimizer soundness over the reference semantics: when every
subexpression evaluates to a finite reduced value without error under the
environment, the optimized tree evaluates to exactly the same result. -/
theorem optimize_expr_sound : ∀ (e : Expr) (env : String → F64),
    totalFinite e env = true → evalAst (optimize_expr e) env = evalAst e env
  | .Number n, _, _ => rfl
  | .Variable x, _, _ => rfl
  | .Binary op l r, env, h => by
    have hparts : totalFinite l env = true ∧ totalFinite r env = true := by
      rw [totalFinite] at h
      simp only [Bool.and_eq_true] at h
      exact h.1
    have hIl := optimize_expr_sound l env hparts.1
    have hIr := optimize_expr_sound r env hparts.2
    have hlv : ∃ ql, evalAst (optimize_expr l) env = .ok (.fin ql) ∧ ql.Reduced := by
      rw [hIl]
      exact totalFinite_ok l env hparts.1
    have hrv : ∃ qr, evalAst (optimize_expr r) env = .ok (.fin qr) ∧ qr.Reduced := by
      rw [hIr]
      exact totalFinite_ok r env hparts.2
    rw [show optimize_expr (.Binary op l r) =
      optBinary op (optimize_expr l) (optimize_expr r) from rfl]
    rw [optBinary_sound op _ _ env hlv hrv]
    exact evalAst_binary_congr op _ _ _ _ env hIl hIr
  | .Unary u e, env, h => by
    have hsub : totalFinite e env = true := by
      rw [totalFinite] at h
      simp only [Bool.and_eq_true] at h
      exact h.1
    have hIe := optimize_expr_sound e env hsub
    rw [show optimize_expr (.Unary u e) = optUnary u (optimize_expr e) from rfl]
    rw [optUnary_sound u _ env]
    rw [evalAst, hIe, ← evalAst]
  | .Call f args, env, h => by
    have hsub : totalFiniteArgs args env = true := by
      rw [totalFinite] at h
      simp only [Bool.and_eq_true] at h
      exact h.1
    have hIargs := optimize_args_sound args env hsub
    rw [show optimize_expr (.Call f args) = .Call f (optimize_args args) from rfl]
    rw [evalAst, hIargs, ← evalAst]
theorem optimize_args_sound : ∀ (as : ExprList) (env : String → F64),
    totalFiniteArgs as env = true → evalArgs (optimize_args as) env = evalArgs as env
  | .nil, _, _ => rfl
  | .cons a tl, env, h => by
    have hparts : totalFinite a env = true ∧ totalFiniteArgs tl env = true := by
      rw [totalFiniteArgs] at h
      simp only [Bool.and_eq_true] at h
      exact h
    have hIa := optimize_expr_sound a env hparts.1
    have hItl := optimize_args_sound tl env hparts.2
    rw [show optimize_args (.cons a tl) = .cons (optimize_expr a) (optimize_args tl) from rfl]
    rw [evalArgs, hIa, hItl, ← evalArgs]
end

/-- End-to-end VM correctness for a compiled expression tree: running the
compiled program on a variable vector that agrees with the environment on
the compiled variable order computes exactly the reference semantics. -/
theorem run_eq_evalAst (e : Expr) (vars : List F64) (env : String → F64)
    (hlim : withinLimits (compile_expr e Program.new))
    (har : arityOk e = true)
    (hlen : ¬ vars.length < (compile_expr e Program.new).var_names.length)
    (hvars : ∀ i, i < (compile_expr e Program.new).var_names.length →
      vars.getD i (.fin 0) = env ((compile_expr e Program.new).var_names.getD i "")) :
    (compile_expr e Program.new).eval ⟨vars⟩ = evalAst e env := by
  obtain ⟨hbc, hbv, hbf⟩ := hlim
  have hfi : FuncInv (compile_expr e Program.new) := compile_expr_funcinv e Program.new rfl
  have hsz : osize e ≤ (compile_expr e Program.new).instructions.length := by
    have h := compile_expr_size e Program.new
    simpa [Program.new] using h
  have hkey := compile_expr_sim e Program.new (compile_expr e Program.new) env vars
    ((compile_expr e Program.new).instructions.length - osize e) []
    (ProgExtends.ext_refl _) hfi hbc hbv hbf har hvars
  rw [Nat.sub_add_cancel hsz] at hkey
  have h0 : Program.new.instructions.length = 0 := rfl
  rw [h0] at hkey
  rw [Program.eval, if_neg hlen]
  rcases hev : evalAst e env with er | v
  · simp only [hev] at hkey
    rw [hkey]
  · simp only [hev] at hkey
    rw [hkey, vmLoop_end _ _ _ _ _ (Nat.lt_irrefl _)]

theorem get?_append_lt (l t : List α) (i : Nat) (h : i < l.length) :
    (l ++ t).get? i = l.get? i := by
  induction l generalizing i with
  | nil => simp at h
  | cons a as ih =>
    cases i with
    | zero => rfl
    | succ n => exact ih n (Nat.lt_of_succ_lt_succ h)

/-- C1 (corrected): optimizer soundness holds once each pipeline is run on
the context built from its own variable order under one common name
environment, for trees whose subexpressions all evaluate to finite reduced
values under that environment (the totality proviso the spec itself
attaches to the discarding rewrites), within the u16 pool limits and u8
arities.  The literal claim, which feeds one shared positional context to
both programs, is refuted by c1_counterexample: the optimizer can drop a
variable and shift the positional meaning of every later slot. -/
theorem c1_optimizer_soundness_amended (s : String) (env : String → F64) (e : Expr)
    (hp : parseSrc s = .ok e)
    (hlimO : withinLimits (compileOk s))
    (hlimU : withinLimits (compileUnoptOk s))
    (harO : arityOk (optimize_expr e) = true)
    (harU : arityOk e = true)
    (htf : totalFinite e env = true) :
    (compileOk s).eval (ctxOf (compileOk s) env) =
      (compileUnoptOk s).eval (ctxOf (compileUnoptOk s) env) := by
  have hO : compileOk s = compile_expr (optimize_expr e) Program.new := by
    rw [compileOk, compileSrc, hp]
    rfl
  have hU : compileUnoptOk s = compile_expr e Program.new := by
    rw [compileUnoptOk, compileSrcUnoptimized, hp]
  rw [hO] at hlimO
  rw [hU] at hlimU
  rw [hO, hU]
  simp only [ctxOf]
  rw [run_eq_evalAst (optimize_expr e)
    ((compile_expr (optimize_expr e) Program.new).var_names.map env) env hlimO harO
    (by simp) (fun i hi => getD_map_lt env _ i _ "" hi)]
  rw [run_eq_evalAst e
    ((compile_expr e Program.new).var_names.map env) env hlimU harU
    (by simp) (fun i hi => getD_map_lt env _ i _ "" hi)]
  exact optimize_expr_sound e env htf

/-- C1 counterexample: the source "y * 0 + z" optimizes to the bare
variable z, so the optimized program has one variable where the bypassed
one has two.  The shared context [1.0, 2.0] is accepted by both programs,
yet the optimized program reads 1.0 into z while the bypassed one computes
1.0 * 0.0 + 2.0 = 2.0: equal inputs, finite unequal outputs, with no
IEEE reassociation involved. -/
theorem c1_counterexample :
    (compileOk "y * 0 + z").var_names = ["z"] ∧
    (compileUnoptOk "y * 0 + z").var_names = ["y", "z"] ∧
    (compileOk "y * 0 + z").eval ⟨[.fin 1, .fin 2]⟩ = .ok (.fin 1) ∧
    (compileUnoptOk "y * 0 + z").eval ⟨[.fin 1, .fin 2]⟩ = .ok (.fin 2) :=
  ⟨by decide, by decide, by decide, by decide⟩

/-- Witness for c1_optimizer_soundness_amended at the source
"x * 1 + 2 * 3" under the environment binding every name to 5. -/
theorem c1_witness :
    parseSrc "x * 1 + 2 * 3" = .ok (.Binary .add
      (.Binary .mul (.Variable "x") (.Number (.fin 1)))
      (.Binary .mul (.Number (.fin 2)) (.Number (.fin 3)))) ∧
    withinLimits (compileOk "x * 1 + 2 * 3") ∧
    withinLimits (compileUnoptOk "x * 1 + 2 * 3") ∧
    totalFinite (.Binary .add
      (.Binary .mul (.Variable "x") (.Number (.fin 1)))
      (.Binary .mul (.Number (.fin 2)) (.Number (.fin 3)))) (fun _ => .fin 5) = true ∧
    (compileOk "x * 1 + 2 * 3").eval
        (ctxOf (compileOk "x * 1 + 2 * 3") (fun _ => .fin 5)) =
      (compileUnoptOk "x * 1 + 2 * 3").eval
        (ctxOf (compileUnoptOk "x * 1 + 2 * 3") (fun _ => .fin 5)) :=
  ⟨rfl, by decide, by decide, by decide,
   c1_optimizer_soundness_amended "x * 1 + 2 * 3" (fun _ => .fin 5)
     (.Binary .add (.Binary .mul (.Variable "x") (.Number (.fin 1)))
       (.Binary .mul (.Number (.fin 2)) (.Number (.fin 3))))
     rfl (by decide) (by decide) (by decide) (by decide) (by decide)⟩

/-- C7 (corrected): for a compiled program, setting a name the program
does not know leaves both the evaluation result and every get unchanged,
PROVIDED the context already covers the variable count of the program.
Without that proviso the claim is refuted by c7_counterexample: set pushes
the value at the end of the vector, and when the context is shorter than
the variable list the pushed slot is exactly the next readable variable
slot. -/
theorem c7_frame_set_amended (ast : Expr) (vals : List F64) (name : String) (v : F64)
    (hnotin : name ∉ (compile_expr ast Program.new).var_names)
    (hlen : (compile_expr ast Program.new).var_names.length ≤ vals.length)
    (hlim : withinLimits (compile_expr ast Program.new))
    (har : arityOk ast = true) :
    (compile_expr ast Program.new).eval
        (Context.set ⟨vals⟩ name v (compile_expr ast Program.new)) =
      (compile_expr ast Program.new).eval ⟨vals⟩ ∧
    ∀ nm, Context.get (Context.set ⟨vals⟩ name v (compile_expr ast Program.new)) nm
        (compile_expr ast Program.new) =
      Context.get ⟨vals⟩ nm (compile_expr ast Program.new) := by
  have hnone : position? (fun n => n == name)
      (compile_expr ast Program.new).var_names = none := by
    rw [position?_none_iff]
    intro a ha
    simp only [beq_eq_false_iff_ne, ne_eq]
    intro he
    exact hnotin (he ▸ ha)
  have hset : Context.set ⟨vals⟩ name v (compile_expr ast Program.new) = ⟨vals ++ [v]⟩ := by
    rw [Context.set, hnone]
  have hnodup : (compile_expr ast Program.new).var_names.Nodup :=
    compile_expr_nodup ast Program.new List.nodup_nil
  have hvars : ∀ i, i < (compile_expr ast Program.new).var_names.length →
      vals.getD i (.fin 0) =
        (fun nm => vals.getD ((position? (fun n => n == nm)
          (compile_expr ast Program.new).var_names).getD 0) (.fin 0))
        ((compile_expr ast Program.new).var_names.getD i "") := by
    intro i hi
    simp only
    rw [position?_beq_self _ i "" hnodup hi]
    rfl
  have hvars2 : ∀ i, i < (compile_expr ast Program.new).var_names.length →
      (vals ++ [v]).getD i (.fin 0) =
        (fun nm => vals.getD ((position? (fun n => n == nm)
          (compile_expr ast Program.new).var_names).getD 0) (.fin 0))
        ((compile_expr ast Program.new).var_names.getD i "") := by
    intro i hi
    rw [getD_append_lt vals [v] i _ (Nat.lt_of_lt_of_le hi hlen)]
    exact hvars i hi
  constructor
  · rw [hset]
    rw [run_eq_evalAst ast (vals ++ [v])
      (fun nm => vals.getD ((position? (fun n => n == nm)
        (compile_expr ast Program.new).var_names).getD 0) (.fin 0))
      hlim har (by simp only [List.length_append, List.length_cons, List.length_nil]; omega)
      hvars2]
    rw [run_eq_evalAst ast vals
      (fun nm => vals.getD ((position? (fun n => n == nm)
        (compile_expr ast Program.new).var_names).getD 0) (.fin 0))
      hlim har (by omega) hvars]
  · intro nm
    rw [hset]
    rcases hpos : position? (fun n => n == nm) (compile_expr ast Program.new).var_names
      with _ | i
    · simp only [Context.get, hpos]
    · simp only [Context.get, hpos, Context.get_by_index]
      exact get?_append_lt vals [v] i
        (Nat.lt_of_lt_of_le (position?_some_lt _ _ _ hpos) hlen)

/-- C7 counterexample: the program for "x + y" needs two variables; on
the one-slot context [1.0], set of the absent name "z" pushes 5.0 into
the slot the program reads as y.  Before the set, eval rejects the
context; after it, eval succeeds and answers 6.0: the stored value was
reachable. -/
theorem c7_counterexample :
    "z" ∉ (compileOk "x + y").var_names ∧
    Context.set ⟨[.fin 1]⟩ "z" (.fin 5) (compileOk "x + y") = ⟨[.fin 1, .fin 5]⟩ ∧
    (compileOk "x + y").eval ⟨[.fin 1]⟩ = .error (.variableCountMismatch 2 1) ∧
    (compileOk "x + y").eval (Context.set ⟨[.fin 1]⟩ "z" (.fin 5) (compileOk "x + y")) =
      .ok (.fin 6) :=
  ⟨by decide, rfl, by decide, by decide⟩

/-- Witness for c7_frame_set_amended: program for the single variable x,
one-slot context [3.0], setting the absent name "q" to 9.0. -/
theorem c7_witness :
    "q" ∉ (compile_expr (.Variable "x") Program.new).var_names ∧
    (compile_expr (.Variable "x") Program.new).var_names.length ≤ [F64.fin 3].length ∧
    withinLimits (compile_expr (.Variable "x") Program.new) ∧
    arityOk (.Variable "x") = true ∧
    (compile_expr (.Variable "x") Program.new).eval
        (Context.set ⟨[F64.fin 3]⟩ "q" (.fin 9) (compile_expr (.Variable "x") Program.new)) =
      (compile_expr (.Variable "x") Program.new).eval ⟨[F64.fin 3]⟩ :=
  ⟨by decide, by decide, by decide, by decide,
   (c7_frame_set_amended (.Variable "x") [F64.fin 3] "q" (.fin 9) (by decide) (by decide)
     (by decide) (by decide)).1⟩

/-- C8: a function name outside the builtin registry resolves to the
sentinel builtin_unknown, which returns NaN whatever its arguments;
a source applying such a name (here foo) compiles without error, and
evaluating the compiled call of an unknown name yields NaN. -/
theorem c8_unknown_function_nan (name : String) (args : List F64)
    (hname : name ∉ registry_names) :
    builtinFor name = builtin_unknown ∧
    builtinFor name args = .nan ∧
    compileSrc "foo(1)" = .ok (compiler_compile (.Call "foo" (.cons (.Number (.fin 1)) .nil))) ∧
    (compiler_compile (.Call name (.cons (.Number (.fin 1)) .nil))).eval Context.new =
      .ok .nan := by
  simp only [registry_names, List.mem_cons, List.not_mem_nil, or_false] at hname
  push_neg at hname
  obtain ⟨h1, h2, h3, h4, h5, h6, h7, h8, h9, h10, h11, h12, h13⟩ := hname
  have hbf : builtinFor name = builtin_unknown := by
    rw [builtinFor, if_neg h1, if_neg h2, if_neg h3, if_neg h4, if_neg h5, if_neg h6,
      if_neg h7, if_neg h8, if_neg h9, if_neg h10, if_neg h11, if_neg h12, if_neg h13]
  refine ⟨hbf, by rw [hbf]; rfl, rfl, ?_⟩
  have hlimC : withinLimits
      (compile_expr (.Call name (.cons (.Number (.fin 1)) .nil)) Program.new) := by
    refine ⟨?_, ?_, ?_⟩
    · show (1 : Nat) < 65536
      decide
    · show (0 : Nat) < 65536
      decide
    · show (1 : Nat) < 65536
      decide
  have harC : arityOk (.Call name (.cons (.Number (.fin 1)) .nil)) = true := rfl
  have hev := run_eq_evalAst (.Call name (.cons (.Number (.fin 1)) .nil)) []
    (fun _ => .fin 0) hlimC harC
    (fun h => absurd (show (0 : Nat) < 0 from h) (Nat.lt_irrefl 0))
    (fun i hi => absurd (show i < 0 from hi) (Nat.not_lt_zero i))
  show (compile_expr (.Call name (.cons (.Number (.fin 1)) .nil)) Program.new).eval ⟨[]⟩ =
    .ok .nan
  rw [hev]
  rw [show evalAst (.Call name (.cons (.Number (.fin 1)) .nil)) (fun _ => .fin 0) =
    .ok (builtinFor name [.fin 1]) from rfl]
  rw [hbf]
  rfl

/-- Witness for c8_unknown_function_nan at the name foo with the argument
list [inf]. -/
theorem c8_witness :
    "foo" ∉ registry_names ∧
    (builtinFor "foo" = builtin_unknown ∧
     builtinFor "foo" [F64.inf] = .nan ∧
     compileSrc "foo(1)" = .ok (compiler_compile (.Call "foo" (.cons (.Number (.fin 1)) .nil))) ∧
     (compiler_compile (.Call "foo" (.cons (.Number (.fin 1)) .nil))).eval Context.new =
       .ok .nan) :=
  ⟨by decide, c8_unknown_function_nan "foo" [F64.inf] (by decide)⟩

set_option maxRecDepth 100000 in
set_option maxHeartbeats 4000000 in
/-- C3 (code bug): emission does not fail on a Call with 256 arguments.
The compiler emits the arg-count byte as 256 mod 256 = 0 (the as-u8 cast in
compiler.rs line 124 truncates silently; compile has no error path), and
the resulting program runs: the Call pops zero arguments, so evaluating
max over 256 ones returns the fold seed -infinity instead of 1. -/
theorem c3_arity_truncation_code_bug :
    exlen (exrep 256 (.Number (.fin 1))) = 256 ∧
    (compiler_compile e256).instructions.getD
      ((compiler_compile e256).instructions.length - 1) 99 = 0 ∧
    (compiler_compile e256).eval Context.new = .ok .ninf :=
  ⟨by decide, by decide, by decide⟩

end Matheval
